import Mathlib

/-!
# Pixel-Code engine of `script.js`

A shallow embedding of the string-level logic of `src/script.js`:
`colorPartToHex`, `contrastColor`, the Pixel-Code grammar regular expression,
the layout selection of `showCharsOverlay` and `generatePixelCode`.

JavaScript strings are sequences of UTF-16 code units; they are embedded as
`List Nat`, one number per code unit.
-/

namespace PixelCode

/-! ## Strings -/

/-- A JavaScript string: its UTF-16 code units in order. -/
abbrev JSString := List Nat

/-- The code units of a string literal of the source (all literals used are ASCII). -/
def lit (s : String) : JSString := s.toList.map Char.toNat

/-- The `WhiteSpace` and `LineTerminator` code units of ECMAScript: what
`String.prototype.trim` removes and what `\s` matches in a regular expression. -/
def isWhiteSpace (c : Nat) : Bool :=
  c == 9 || c == 10 || c == 11 || c == 12 || c == 13 || c == 32 || c == 160 ||
  c == 5760 || (8192 ≤ c && c ≤ 8202) || c == 8232 || c == 8233 || c == 8239 ||
  c == 8287 || c == 12288 || c == 65279

/-- The class `\d` of a regular expression without the `u` flag: `0`-`9`. -/
def isDigit (c : Nat) : Bool := 48 ≤ c && c ≤ 57

/-- The class `[A-Z]`. -/
def isUpper (c : Nat) : Bool := 65 ≤ c && c ≤ 90

/-- The class `[a-z]`. -/
def isLower (c : Nat) : Bool := 97 ≤ c && c ≤ 122

/-- The class `[A-Za-z]`. -/
def isLetter (c : Nat) : Bool := isUpper c || isLower c

/-- The class `[0-9A-Fa-f]`. -/
def isHexDigit (c : Nat) : Bool :=
  isDigit c || (65 ≤ c && c ≤ 70) || (97 ≤ c && c ≤ 102)

/-- The class `[A-Za-z0-9#]` of the color token. -/
def isTokenChar (c : Nat) : Bool := isLetter c || isDigit c || c == 35

/-- The method `String.prototype.trim`: white space is removed at both ends. -/
def trim (s : JSString) : JSString :=
  ((s.dropWhile isWhiteSpace).reverse.dropWhile isWhiteSpace).reverse

/-- Upper-casing of one code unit. The program calls `toUpperCase` only on
strings matched by `[0-9A-Fa-f]` or `[A-Za-z]`, where it maps `a`-`z` to `A`-`Z`;
other code units are left in place. -/
def upperUnit (c : Nat) : Nat := if isLower c then c - 32 else c

/-- The method `String.prototype.toUpperCase` (see `upperUnit`). -/
def toUpperCase (s : JSString) : JSString := s.map upperUnit

/-- Lower-casing of one code unit: `A`-`Z` go to `a`-`z`; the two code units
outside ASCII whose lower case contains an ASCII letter are U+212A (Kelvin sign,
to `k`) and U+0130 (to `i` followed by U+0307). Every other code unit
lower-cases to code units outside ASCII and is left in place: the program only
compares the result with ASCII keys. -/
def lowerUnit (c : Nat) : List Nat :=
  if isUpper c then [c + 32]
  else if c = 8490 then [107]
  else if c = 304 then [105, 775]
  else [c]

/-- The method `String.prototype.toLowerCase` (see `lowerUnit`). -/
def toLowerCase (s : JSString) : JSString := s.flatMap lowerUnit

/-! ## Regular expressions

Every regular expression of the engine that is anchored with `^` and `$` is a
concatenation of quantified character classes. `matchPieces` is the
backtracking matcher for that shape: each piece first takes as many code units
as it can and gives them back one at a time while the rest fails to match. -/

/-- A quantified character class `cls{lo,hi}`; `hi = none` is "no upper bound". -/
structure Piece where
  cls : Nat → Bool
  lo : Nat
  hi : Option Nat

/-- The largest number of code units a piece can take at the head of `input`. -/
def runLength (p : Piece) (input : JSString) : Nat :=
  match p.hi with
  | none => (input.takeWhile p.cls).length
  | some h => min (input.takeWhile p.cls).length h

/-- Greedy choice with backtracking: try to take `k` code units, then `k - 1`, ...
down to `lo`, and keep the first choice for which `rest` matches what is left.
The code units taken are put in front of the captures of `rest`. -/
def tryCounts (rest : JSString → Option (List JSString)) (input : JSString) (lo : Nat) :
    Nat → Option (List JSString)
  | 0 => if lo = 0 then (rest input).map (fun caps => [] :: caps) else none
  | k + 1 =>
    if k + 1 < lo then none
    else
      match rest (input.drop (k + 1)) with
      | some caps => some (input.take (k + 1) :: caps)
      | none => tryCounts rest input lo k

/-- Match `^p1 p2 ... pn$` against the whole of `input`; the result lists what
each piece took. -/
def matchPieces : List Piece → JSString → Option (List JSString)
  | [], input => if input.isEmpty then some [] else none
  | p :: ps, input => tryCounts (matchPieces ps) input p.lo (runLength p input)

/-- The pattern `^\s*(\d+)([A-Za-z])(\d+)_?([A-Za-z0-9#]+)\s*$`. -/
def grammarPieces : List Piece :=
  [⟨isWhiteSpace, 0, none⟩, ⟨isDigit, 1, none⟩, ⟨isLetter, 1, some 1⟩, ⟨isDigit, 1, none⟩,
   ⟨fun c => c == 95, 0, some 1⟩, ⟨isTokenChar, 1, none⟩, ⟨isWhiteSpace, 0, none⟩]

/-- The four captured groups `m[1]`..`m[4]` of a successful match of the grammar. -/
structure Groups where
  size : JSString
  row : JSString
  column : JSString
  color : JSString
deriving DecidableEq, Repr

/-- The call `/^\s*(\d+)([A-Za-z])(\d+)_?([A-Za-z0-9#]+)\s*$/.exec(code)`:
`none` is the `null` of a failed match. -/
def execGrammar (code : JSString) : Option Groups :=
  match matchPieces grammarPieces code with
  | some [_, g1, g2, g3, _, g4, _] => some ⟨g1, g2, g3, g4⟩
  | _ => none

/-- The test `/^([0-9A-Fa-f]{n})$/.test(p)`. -/
def testHex (n : Nat) (p : JSString) : Bool :=
  (matchPieces [⟨isHexDigit, n, some n⟩] p).isSome

/-! ## Numbers and their decimal notation -/

/-- Decimal digits of `n`, most significant first, put in front of `acc`;
`fuel` bounds the number of digits written. -/
def toDigits : Nat → Nat → JSString → JSString
  | 0, _, acc => acc
  | fuel + 1, n, acc =>
    if n < 10 then (48 + n) :: acc
    else toDigits fuel (n / 10) ((48 + n % 10) :: acc)

/-- The string of a non-negative integer in a template literal: its decimal
digits. This is what JavaScript writes for an integer below `10^21`; from
`10^21` on JavaScript writes exponent notation (`1e+21`), which this function
does not, so it stands for the source only below `10^21`. -/
def natToString (n : Nat) : JSString := toDigits (n + 1) n []

/-- The string of a number in a template literal; `none` is `NaN`. As
`natToString`, it stands for the source only for magnitudes below `10^21`. -/
def numToString : Option Int → JSString
  | none => lit "NaN"
  | some (Int.ofNat n) => natToString n
  | some (Int.negSucc n) => 45 :: natToString (n + 1)

/-- The value of a code unit as a digit in `radix` (10 or 16), if it is one. -/
def digitValue (radix : Nat) (c : Nat) : Option Nat :=
  if isDigit c then some (c - 48)
  else if radix = 16 && (65 ≤ c && c ≤ 70) then some (c - 55)
  else if radix = 16 && (97 ≤ c && c ≤ 102) then some (c - 87)
  else none

/-- The longest prefix of digits of `s` in `radix`, read as a number from the
starting value `acc`; the Boolean tells whether at least one digit was read. -/
def readDigits (radix : Nat) : JSString → Nat → Bool → Nat × Bool
  | [], acc, seen => (acc, seen)
  | c :: cs, acc, seen =>
    match digitValue radix c with
    | some d => readDigits radix cs (acc * radix + d) true
    | none => (acc, seen)

/-- The function `parseInt(s, radix)` for `radix` 10 or 16: leading white space is
skipped, a sign is read, for radix 16 a prefix `0x` or `0X` is skipped, then the
longest prefix of digits is read; `none` is `NaN` (no digit). The integer is kept
exact. JavaScript returns the nearest double, which is the same number up to
`2^53` and may differ above (`parseInt('9007199254740993', 10)` is
`9007199254740992`), so this function stands for the source only up to `2^53`.
The comparisons with `chars.length` are not affected: a length is below `2^32`
and rounding to a double is monotone. -/
def parseInt (s : JSString) (radix : Nat) : Option Int :=
  let s1 := s.dropWhile isWhiteSpace
  let neg : Bool := s1.head? = some 45
  let s2 := if s1.head? = some 45 ∨ s1.head? = some 43 then s1.tail else s1
  let s3 :=
    if radix = 16 ∧ (s2.take 2 = [48, 120] ∨ s2.take 2 = [48, 88]) then s2.drop 2 else s2
  match readDigits radix s3 0 false with
  | (v, true) => some (if neg then -(v : Int) else (v : Int))
  | (_, false) => none

/-- The number written by the decimal digits `ds`, read after the value `v`. -/
def decimalFold (v : Nat) (ds : JSString) : Nat := ds.foldl (fun a c => a * 10 + (c - 48)) v

/-! ## Color resolution -/

/-- The values a property read on `BASIC_COLOR_MAP` can give, and so the values
`colorPartToHex` can return. -/
inductive JSVal
  /-- A string. -/
  | str (s : JSString)
  /-- The built-in function object of that name. -/
  | nativeFunction (name : JSString)
  /-- The object `Object.prototype`. -/
  | objectPrototype
deriving DecidableEq, Repr

/-- The own properties of the object literal `BASIC_COLOR_MAP`. -/
def BASIC_COLOR_MAP : List (JSString × JSString) :=
  [(lit "black", lit "#000000"), (lit "white", lit "#FFFFFF"), (lit "red", lit "#FF0000"),
   (lit "green", lit "#00FF00"), (lit "blue", lit "#0000FF"), (lit "yellow", lit "#FFFF00"),
   (lit "magenta", lit "#FF00FF"), (lit "cyan", lit "#00FFFF"), (lit "gray", lit "#808080"),
   (lit "pink", lit "#FF5EA8"), (lit "purple", lit "#8A2BE2"), (lit "orange", lit "#FFA500")]

/-- The names of the function-valued properties of `Object.prototype` other
than `constructor`. -/
def objectPrototypeMethods : List JSString :=
  [lit "hasOwnProperty", lit "isPrototypeOf", lit "propertyIsEnumerable",
   lit "toLocaleString", lit "toString", lit "valueOf", lit "__defineGetter__",
   lit "__defineSetter__", lit "__lookupGetter__", lit "__lookupSetter__"]

/-- A property read on `Object.prototype`, the prototype of every object
literal: `constructor` is the function `Object`, `__proto__` read through an
object literal is `Object.prototype` itself. -/
def objectPrototypeGet (key : JSString) : Option JSVal :=
  if key = lit "constructor" then some (.nativeFunction (lit "Object"))
  else if key = lit "__proto__" then some .objectPrototype
  else if key ∈ objectPrototypeMethods then some (.nativeFunction key)
  else none

/-- The property read `obj[key]` on an object literal with the own properties
`own`: an own property first, then the prototype chain; `none` is `undefined`. -/
def getProperty (own : List (JSString × JSString)) (key : JSString) : Option JSVal :=
  match own.lookup key with
  | some v => some (.str v)
  | none => objectPrototypeGet key

/-- Truthiness of a value in a condition: a string is truthy unless empty,
objects and functions are truthy. -/
def truthy : JSVal → Bool
  | .str s => !s.isEmpty
  | _ => true

/-- The function `colorPartToHex(part)` of `showCharsOverlay`, on a string. -/
def colorPartToHex (part : JSString) : JSVal :=
  if part.isEmpty then .str (lit "#FF00FF")
  else
    let p := trim part
    let p := if p.head? = some 35 then p.drop 1 else p
    if testHex 6 p then .str (35 :: toUpperCase p)
    else if testHex 8 p then .str (35 :: toUpperCase (p.take 6))
    else
      match getProperty BASIC_COLOR_MAP (toLowerCase p) with
      | some lookup => if truthy lookup then lookup else .str (lit "#FF00FF")
      | none => .str (lit "#FF00FF")

/-! ## Code generation -/

/-- Row labels of the pixel-code format: `A`-`Z`, then `a`-`f`. -/
def ROW_LABELS : List JSString :=
  ((List.range 26).map fun i => [65 + i]) ++ [lit "a", lit "b", lit "c", lit "d", lit "e", lit "f"]

/-- The array `colors` of `generatePixelCode`. -/
def colors : List JSString :=
  [lit "Red", lit "Green", lit "Blue", lit "Purple", lit "Cyan", lit "Yellow", lit "Pink",
   lit "Orange", lit "Magenta"]

/-- The template literal of line 375, with the underscore between
position and color. -/
def formatCode (size : Nat) (row : JSString) (col : Nat) (color : JSString) : JSString :=
  natToString size ++ row ++ natToString col ++ lit "_" ++ color

/-- The function `generatePixelCode(input)` on a string. The sum of the code
units is an exact integer: a string has fewer than `2^53` code units of at most
`65535` each only in theory, engines bound its length by `2^32`, so the sum
stays below `2^53`. -/
def generatePixelCode (input : JSString) : JSString :=
  let s := trim input
  let len := s.length
  let size :=
    if len ≤ 2 then 8
    else if len ≤ 4 then 16
    else if len ≤ 8 then 24
    else if len ≤ 12 then 32
    else if len ≤ 20 then 48
    else 64
  let row :=
    match s.find? isLetter with
    | some m => toUpperCase [m]
    | none => lit "M"
  let sum := s.foldl (fun acc c => acc + c) 0
  let col := sum % max 1 size + 1
  let color := colors.getD (sum % colors.length) []
  formatCode size row col color

/-! ## Double-precision arithmetic

The luminance of `contrastColor` is computed in IEEE 754 double precision.
A finite double is a dyadic rational; each operation is the exact operation
followed by rounding to nearest, ties to even, on a 53-bit significand.
Overflow to infinity is not part of the model: every number of `contrastColor`
has magnitude below `2^9`. -/

/-- A finite double: the number `num / 2^scale`. -/
structure F64 where
  num : Int
  scale : Nat
deriving Repr

/-- The quotient `n / d` rounded to the nearest integer, ties to even. -/
def divRound (n d : Nat) : Nat :=
  let q := n / d
  let r := n % d
  if 2 * r < d then q
  else if 2 * r = d then (if q % 2 = 0 then q else q + 1)
  else q + 1

/-- The least `s`, counted from `s` in at most `fuel` steps, with
`2^52 ≤ (a / d) * 2^s`: the number of fraction bits of the double nearest to
`a / d`. The count stops at `1074`, the fraction bits of the subnormal doubles. -/
def normShift (a d : Nat) : Nat → Nat → Nat
  | 0, s => s
  | fuel + 1, s => if 2 ^ 52 * d ≤ a * 2 ^ s then s else normShift a d fuel (s + 1)

/-- The least `j`, counted from `j` in at most `fuel` steps, with
`a / d < 2^53 * 2^j`: the power of two that the doubles near `a / d` are
multiples of, for `a / d` of `2^53` and more. -/
def coarseShift (a d : Nat) : Nat → Nat → Nat
  | 0, j => j
  | fuel + 1, j => if a < 2 ^ 53 * d * 2 ^ j then j else coarseShift a d fuel (j + 1)

/-- The double nearest to the non-negative rational `a / d` (`d` positive). -/
def roundPos (a d : Nat) : F64 :=
  if a < 2 ^ 53 * d then
    let s := normShift a d 1074 0
    ⟨divRound (a * 2 ^ s) d, s⟩
  else
    let j := coarseShift a d 971 0
    ⟨divRound a (d * 2 ^ j) * 2 ^ j, 0⟩

namespace F64

/-- The double nearest to the rational `n / d` (`d` positive). -/
def round (n : Int) (d : Nat) : F64 :=
  let r := roundPos n.natAbs d
  if n < 0 then ⟨-r.num, r.scale⟩ else r

/-- The double of an integer. -/
def ofInt (n : Int) : F64 := round n 1

/-- Double multiplication. -/
def mul (x y : F64) : F64 := round (x.num * y.num) (2 ^ (x.scale + y.scale))

/-- Double addition. -/
def add (x y : F64) : F64 :=
  round (x.num * 2 ^ y.scale + y.num * 2 ^ x.scale) (2 ^ (x.scale + y.scale))

/-- Double division by a non-zero double. -/
def div (x y : F64) : F64 :=
  round (x.num * 2 ^ y.scale * y.num.sign) (y.num.natAbs * 2 ^ x.scale)

/-- The comparison `x < y` of two doubles. -/
def lt (x y : F64) : Bool := decide (x.num * 2 ^ y.scale < y.num * 2 ^ x.scale)

end F64

/-- The rational number a double stands for. -/
def F64.val (x : F64) : ℚ := (x.num : ℚ) / 2 ^ x.scale

/-! ## Contrast color -/

/-- The conversion `String(v)`. -/
def toStringJS : JSVal → JSString
  | .str s => s
  | .nativeFunction name => lit "function " ++ name ++ lit "() { [native code] }"
  | .objectPrototype => lit "[object Object]"

/-- The call `s.slice(a, b)` for `0 ≤ a ≤ b`. -/
def slice (s : JSString) (a b : Nat) : JSString := (s.drop a).take (b - a)

/-- The luminance of line 201 for integer channels, in double precision. -/
def luminance (r g b : Int) : F64 :=
  F64.div
    (F64.add
      (F64.add (F64.mul (F64.round 2126 10000) (F64.ofInt r))
        (F64.mul (F64.round 7152 10000) (F64.ofInt g)))
      (F64.mul (F64.round 722 10000) (F64.ofInt b)))
    (F64.ofInt 255)

/-- The function `contrastColor(hex)` of `showCharsOverlay`. A channel that is
`NaN` makes the luminance `NaN`, and `NaN > 0.6` is false. -/
def contrastColor (hex : JSVal) : JSString :=
  if !truthy hex then lit "#000"
  else
    let h := (toStringJS hex).erase 35
    let r := parseInt (slice h 0 2) 16
    let g := parseInt (slice h 2 4) 16
    let b := parseInt (slice h 4 6) 16
    match r, g, b with
    | some r, some g, some b =>
      if F64.lt (F64.round 6 10) (luminance r g b) then lit "#000" else lit "#fff"
    | _, _, _ => lit "#fff"

/-! ## Layout selection and rendering

`showCharsOverlay` first lists every code with its row, column and color box;
then, from line 178 on, it appends a table or a sampled color list. The
embedding is that second part: what is appended to `.overlay-inner`. -/

/-- A table cell `td`: its `textContent`, `style.background` and `style.color`. -/
structure Cell where
  text : JSVal
  background : JSVal
  color : JSString
deriving DecidableEq, Repr

/-- A chip of the sampled list: its `textContent` and `style.color`. -/
structure Chip where
  text : JSVal
  color : JSVal
deriving DecidableEq, Repr

/-- What `showCharsOverlay` appends after the list of codes. -/
inductive Layout
  /-- Nothing is appended. -/
  | nothing
  /-- A table, given by its rows of cells. -/
  | table (rows : List (List Cell))
  /-- A sampled color list: its title and its chips. -/
  | colorList (title : JSString) (chips : List Chip)
deriving DecidableEq, Repr

/-- The color shown for one code (lines 218-220 and 276-278): the color part
resolved when the code matches the grammar, `#FF00FF` otherwise. -/
def cellHex (code : JSString) : JSVal :=
  match execGrammar code with
  | some mm2 => colorPartToHex mm2.color
  | none => .str (lit "#FF00FF")

/-- The table cell built for one code (lines 217-230). -/
def renderCell (code : JSString) : Cell :=
  let hex := cellHex code
  ⟨hex, hex, contrastColor hex⟩

/-- The chip built for one code of the sampled list (lines 276-290). -/
def renderChip (code : JSString) : Chip :=
  let hex := cellHex code
  ⟨hex, hex⟩

/-- The number of iterations of `for(let i = 0; i < n; i++)`; `none` is `NaN`. -/
def loopBound : Option Int → Nat
  | some n => n.toNat
  | none => 0

/-- The rows of the table (lines 213-233): one row when `isRow`, that is when
`chars.length === size`, and `size` rows otherwise; `chars[idx] || ''` is the
empty string for an index outside `chars`. -/
def renderTable (chars : List JSString) (size : Option Int) (isRow : Bool) : List (List Cell) :=
  (List.range (if isRow then 1 else loopBound size)).map fun r =>
    (List.range (loopBound size)).map fun c =>
      let idx := if isRow then c else r * loopBound size + c
      renderCell (chars.getD idx [])

/-- The list `codesList` of the fallback (lines 242-256). `rows` is
`pixelsMap.rows` (`none` when `pixelsMap` has no `rows`), read at a row label;
`chooseRow` is the outcome of `Math.random() < 0.5`. The codes are those of the
source when `size` is below `2^32` (the longest array) and `col` is below
`2^53`: there `parseInt` is exact and the template literals of lines 249 and 253
write plain digits. For a size or column of `10^21` and more the source writes
exponent notation (`4A1e+21Red`), which this function does not. -/
def sampledCodes (size col : Option Int) (row colorPart : JSString)
    (rows : Option (JSString → Option (List JSString))) (chooseRow : Bool) : List JSString :=
  match rows.bind fun t => t (toUpperCase row) with
  | some l => l
  | none =>
    match rows.bind fun t => t row with
    | some l => l
    | none =>
      if chooseRow then
        (List.range (loopBound size)).map fun x =>
          numToString size ++ row ++ natToString x ++ colorPart
      else
        (ROW_LABELS.take (loopBound size)).map fun rlabel =>
          numToString size ++ rlabel ++ numToString col ++ colorPart

/-- The second part of `showCharsOverlay(chars)`, with `pixelsMap.rows` and the
outcome of `Math.random() < 0.5` as parameters. -/
def showCharsOverlay (chars : List JSString)
    (rows : Option (JSString → Option (List JSString))) (chooseRow : Bool) : Layout :=
  if chars.length > 0 then
    let first := trim (chars.getD 0 [])
    match execGrammar first with
    | none => .nothing
    | some mm =>
      let size := parseInt mm.size 10
      let isRow : Bool := size == some (chars.length : Int)
      let isGrid : Bool := size.map (fun n => n * n) == some (chars.length : Int)
      if isRow || isGrid then .table (renderTable chars size isRow)
      else
        let row := mm.row
        let col := parseInt mm.column 10
        let colorPart := mm.color
        let codesList := sampledCodes size col row colorPart rows chooseRow
        let title :=
          if chooseRow then lit "Mostrando fila " ++ toUpperCase row
          else lit "Mostrando columna " ++ numToString col
        .colorList title (codesList.map renderChip)
  else .nothing

/-- A string of the form `#RRGGBB`: `#` followed by six upper-case hexadecimal
digits. -/
def isHexColor (s : JSString) : Bool :=
  s.length = 7 && s.head? = some 35 && s.tail.all fun c => isDigit c || (65 ≤ c ∧ c ≤ 70)

/-- Append `w` to the entry of index `n` of a list of captures. -/
def appendAt : Nat → JSString → List JSString → List JSString
  | _, _, [] => []
  | 0, w, c :: cs => (c ++ w) :: cs
  | n + 1, w, c :: cs => c :: appendAt n w cs

/-- The comparison `lum > 0.6` of line 202 for channels `r`, `g`, `b`. -/
def blackText (r g b : Nat) : Bool := F64.lt (F64.round 6 10) (luminance r g b)

/-- The only red channel below 361 for which `2126 r + 7152 g + 722 b` can be
`1530000` at green channel `g`: the solution of `1063 r = 765000 - 3576 g`
modulo 361. -/
def tieRed (g : Nat) : Nat := 18 * (765000 - 3576 * g) % 361

/-- The blue channel that goes with `tieRed g`. -/
def tieBlue (g : Nat) : Nat := (765000 - 3576 * g - 1063 * tieRed g) / 361

/-! # Properties -/

/-! ## Lemmas on the matcher -/

theorem tryCounts_below (rest : JSString → Option (List JSString)) (input : JSString)
    (lo k : Nat) (h : k < lo) : tryCounts rest input lo k = none := by
  cases k with
  | zero => simp [tryCounts]; omega
  | succ k => simp [tryCounts, h]

theorem tryCounts_greedy (rest : JSString → Option (List JSString)) (input : JSString)
    (lo k : Nat) (caps : List JSString) (hlo : lo ≤ k)
    (hrest : rest (input.drop k) = some caps) :
    tryCounts rest input lo k = some (input.take k :: caps) := by
  cases k with
  | zero =>
    have h0 : lo = 0 := by omega
    simp at hrest
    simp [tryCounts, h0, hrest]
  | succ k =>
    have h1 : ¬ (k + 1 < lo) := by omega
    simp [tryCounts, h1, hrest]

theorem matchPieces_cons_greedy (p : Piece) (ps : List Piece) (pre post : JSString)
    (caps : List JSString) (hrun : runLength p (pre ++ post) = pre.length)
    (hlo : p.lo ≤ pre.length) (hrest : matchPieces ps post = some caps) :
    matchPieces (p :: ps) (pre ++ post) = some (pre :: caps) := by
  have h := tryCounts_greedy (matchPieces ps) (pre ++ post) p.lo pre.length caps hlo
    (by simpa using hrest)
  simpa [matchPieces, hrun] using h

theorem takeWhile_prefix (cls : Nat → Bool) (pre post : JSString)
    (hpre : ∀ c ∈ pre, cls c = true) (hpost : ∀ c, post.head? = some c → cls c = false) :
    (pre ++ post).takeWhile cls = pre := by
  rw [List.takeWhile_append_of_pos hpre]
  cases post with
  | nil => simp
  | cons c cs =>
    have := hpost c rfl
    simp [List.takeWhile_cons, this]

theorem runLength_unbounded (cls : Nat → Bool) (lo : Nat) (pre post : JSString)
    (hpre : ∀ c ∈ pre, cls c = true) (hpost : ∀ c, post.head? = some c → cls c = false) :
    runLength ⟨cls, lo, none⟩ (pre ++ post) = pre.length := by
  simp [runLength, takeWhile_prefix cls pre post hpre hpost]

/-! ## White space around a code -/

theorem tryCounts_some (rest : JSString → Option (List JSString)) (input : JSString) (lo : Nat) :
    ∀ (k : Nat) (r : List JSString), tryCounts rest input lo k = some r →
      ∃ j, j ≤ k ∧ lo ≤ j ∧ ∃ caps, rest (input.drop j) = some caps ∧ r = input.take j :: caps := by
  intro k
  induction k with
  | zero =>
    intro r h
    simp only [tryCounts] at h
    split at h
    · rename_i h0
      cases hr : rest input with
      | none => simp [hr] at h
      | some caps =>
        simp [hr] at h
        exact ⟨0, le_refl _, by omega, caps, by simpa using hr, by simp [h]⟩
    · exact absurd h (by simp)
  | succ k ih =>
    intro r h
    simp only [tryCounts] at h
    split at h
    · exact absurd h (by simp)
    · rename_i hlo
      cases hr : rest (input.drop (k + 1)) with
      | none =>
        simp only [hr] at h
        obtain ⟨j, hj, hlj, caps, hc, hrr⟩ := ih r h
        exact ⟨j, by omega, hlj, caps, hc, hrr⟩
      | some caps =>
        simp only [hr] at h
        exact ⟨k + 1, le_refl _, by omega, caps, hr, by simpa using h.symm⟩

theorem tryCounts_none (rest : JSString → Option (List JSString)) (input : JSString) (lo : Nat) :
    ∀ k : Nat, (∀ j ≤ k, rest (input.drop j) = none) → tryCounts rest input lo k = none := by
  intro k
  induction k with
  | zero =>
    intro h
    have := h 0 (le_refl _)
    simp at this
    simp [tryCounts, this]
  | succ k ih =>
    intro h
    simp only [tryCounts]
    split
    · rfl
    · rw [h (k + 1) (le_refl _)]
      exact ih (fun j hj => h j (by omega))

theorem tryCounts_map (rest1 rest2 : JSString → Option (List JSString)) (in1 in2 : JSString)
    (lo : Nat) (f g : List JSString → List JSString)
    (hg : ∀ x caps, g (x :: caps) = x :: f caps) :
    ∀ k : Nat, (∀ j ≤ k, rest1 (in1.drop j) = (rest2 (in2.drop j)).map f) →
      (∀ j ≤ k, in1.take j = in2.take j) →
      tryCounts rest1 in1 lo k = (tryCounts rest2 in2 lo k).map g := by
  intro k
  induction k with
  | zero =>
    intro h _
    have h0 := h 0 (le_refl _)
    simp only [List.drop_zero] at h0
    simp only [tryCounts]
    split
    · rw [h0]
      cases rest2 in2 with
      | none => rfl
      | some caps => simp [hg]
    · rfl
  | succ k ih =>
    intro h ht
    simp only [tryCounts]
    split
    · rfl
    · rw [h (k + 1) (le_refl _)]
      cases hr : rest2 (in2.drop (k + 1)) with
      | none =>
        simp only [Option.map_none']
        exact ih (fun j hj => h j (by omega)) (fun j hj => ht j (by omega))
      | some caps =>
        simp [hg, ht (k + 1) (le_refl _)]

theorem takeWhile_append_space (cls : Nat → Bool)
    (hcls : ∀ c, cls c = true → isWhiteSpace c = false) (w : JSString)
    (hw : ∀ c ∈ w, isWhiteSpace c = true) :
    ∀ u : JSString, (u ++ w).takeWhile cls = u.takeWhile cls := by
  intro u
  induction u with
  | nil =>
    cases w with
    | nil => rfl
    | cons c cs =>
      have h1 := hw c (by simp)
      have h2 : cls c = false := by
        cases hc : cls c with
        | false => rfl
        | true => rw [hcls c hc] at h1; exact absurd h1 (by simp)
      simp [List.takeWhile_cons, h2]
  | cons a t ih =>
    simp only [List.cons_append, List.takeWhile_cons, ih]

theorem runLength_append_space (p : Piece)
    (hcls : ∀ c, p.cls c = true → isWhiteSpace c = false) (u w : JSString)
    (hw : ∀ c ∈ w, isWhiteSpace c = true) :
    runLength p (u ++ w) = runLength p u := by
  simp only [runLength, takeWhile_append_space p.cls hcls w hw u]

theorem runLength_le_length (p : Piece) (u : JSString) : runLength p u ≤ u.length := by
  have h : (u.takeWhile p.cls).length ≤ u.length := (List.takeWhile_sublist p.cls).length_le
  unfold runLength
  split
  · exact h
  · exact le_trans (Nat.min_le_left _ _) h

theorem matchPieces_space_star (v : JSString) :
    matchPieces [⟨isWhiteSpace, 0, none⟩] v =
      if (∀ c ∈ v, isWhiteSpace c = true) then some [v] else none := by
  show tryCounts (matchPieces []) v 0 (v.takeWhile isWhiteSpace).length = _
  split
  · rename_i hall
    have htw : v.takeWhile isWhiteSpace = v := by
      rw [List.takeWhile_eq_self_iff]; exact hall
    rw [htw]
    have := tryCounts_greedy (matchPieces []) v 0 v.length [] (Nat.zero_le _)
      (by simp [matchPieces])
    simpa using this
  · rename_i hall
    apply tryCounts_none
    intro j hj
    have hlt : (v.takeWhile isWhiteSpace).length < v.length := by
      rcases Nat.lt_or_ge (v.takeWhile isWhiteSpace).length v.length with h | h
      · exact h
      · exfalso
        apply hall
        have hfull : (v.takeWhile isWhiteSpace).length = v.length :=
          le_antisymm (List.takeWhile_sublist _).length_le h
        have := (List.takeWhile_sublist isWhiteSpace (l := v)).eq_of_length hfull
        rw [← List.takeWhile_eq_self_iff]; exact this
    have hd : List.drop j v ≠ [] := by
      rw [Ne, List.drop_eq_nil_iff]; omega
    cases hdr : List.drop j v with
    | nil => exact absurd hdr hd
    | cons a b => simp [matchPieces]

theorem matchPieces_trailing (w : JSString) (hw : ∀ c ∈ w, isWhiteSpace c = true) :
    ∀ (ps : List Piece), (∀ p ∈ ps, ∀ c, p.cls c = true → isWhiteSpace c = false) →
      ∀ u : JSString, matchPieces (ps ++ [⟨isWhiteSpace, 0, none⟩]) (u ++ w) =
        (matchPieces (ps ++ [⟨isWhiteSpace, 0, none⟩]) u).map (appendAt ps.length w) := by
  intro ps
  induction ps with
  | nil =>
    intro _ u
    simp only [List.nil_append, matchPieces_space_star, List.length_nil]
    by_cases hu : ∀ c ∈ u, isWhiteSpace c = true
    · have huw : ∀ c ∈ u ++ w, isWhiteSpace c = true := by
        intro c hc
        rcases List.mem_append.1 hc with h | h
        · exact hu c h
        · exact hw c h
      rw [if_pos hu, if_pos huw]
      rfl
    · have huw : ¬ ∀ c ∈ u ++ w, isWhiteSpace c = true := by
        intro h
        exact hu (fun c hc => h c (List.mem_append.2 (Or.inl hc)))
      rw [if_neg hu, if_neg huw]
      rfl
  | cons p ps ih =>
    intro hps u
    have hp := hps p (by simp)
    have ih' := ih (fun q hq => hps q (by simp [hq]))
    show tryCounts (matchPieces (ps ++ [⟨isWhiteSpace, 0, none⟩])) (u ++ w) p.lo
        (runLength p (u ++ w)) =
      (tryCounts (matchPieces (ps ++ [⟨isWhiteSpace, 0, none⟩])) u p.lo (runLength p u)).map
        (appendAt (ps.length + 1) w)
    rw [runLength_append_space p hp u w hw]
    have hle := runLength_le_length p u
    apply tryCounts_map _ _ _ _ _ (appendAt ps.length w) _ (fun x caps => rfl)
    · intro j hj
      rw [List.drop_append_of_le_length (by omega)]
      exact ih' _
    · intro j hj
      rw [List.take_append_of_le_length (by omega)]

/-! ## Lemmas on decimal notation -/

theorem toDigits_spec (fuel : Nat) : ∀ (n : Nat) (acc : JSString), n < fuel →
    ∃ ds : JSString, toDigits fuel n acc = ds ++ acc ∧ ds ≠ [] ∧ (∀ c ∈ ds, isDigit c = true) ∧
      ∀ v, decimalFold v ds = v * 10 ^ ds.length + n := by
  induction fuel with
  | zero => intro n acc h; omega
  | succ fuel ih =>
    intro n acc h
    by_cases h10 : n < 10
    · refine ⟨[48 + n], by simp [toDigits, h10], by simp, ?_, ?_⟩
      · intro c hc
        simp at hc
        subst hc
        simp [isDigit]; omega
      · intro v; simp [decimalFold]
    · have hlt : n / 10 < fuel := by omega
      obtain ⟨ds, hds, _, hdig, hval⟩ := ih (n / 10) ((48 + n % 10) :: acc) hlt
      refine ⟨ds ++ [48 + n % 10], by simp [toDigits, h10, hds], by simp, ?_, ?_⟩
      · intro c hc
        rcases List.mem_append.1 hc with hc | hc
        · exact hdig c hc
        · simp at hc
          subst hc
          simp [isDigit]; omega
      · intro v
        have := hval v
        simp only [decimalFold] at this ⊢
        rw [List.foldl_append, this]
        simp [pow_succ]
        ring_nf
        omega

theorem natToString_spec (n : Nat) :
    natToString n ≠ [] ∧ (∀ c ∈ natToString n, isDigit c = true) ∧
      ∀ v, decimalFold v (natToString n) = v * 10 ^ (natToString n).length + n := by
  obtain ⟨ds, hds, hne, hdig, hval⟩ := toDigits_spec (n + 1) n [] (by omega)
  have : natToString n = ds := by simpa [natToString] using hds
  rw [this]
  exact ⟨hne, hdig, hval⟩

theorem digitValue_ten (c : Nat) (h : isDigit c = true) : digitValue 10 c = some (c - 48) := by
  simp [digitValue, h]

theorem readDigits_digits (ds : JSString) (hdig : ∀ c ∈ ds, isDigit c = true) :
    ∀ (v : Nat) (seen : Bool),
      readDigits 10 ds v seen = (decimalFold v ds, seen || !ds.isEmpty) := by
  induction ds with
  | nil => intro v seen; simp [readDigits, decimalFold]
  | cons c cs ih =>
    intro v seen
    have hc := hdig c (by simp)
    have hcs : ∀ c ∈ cs, isDigit c = true := fun x hx => hdig x (by simp [hx])
    simp [readDigits, digitValue_ten c hc, ih hcs, decimalFold]

theorem isDigit_not_space (c : Nat) (h : isDigit c = true) : isWhiteSpace c = false := by
  simp [isDigit] at h
  simp [isWhiteSpace]
  omega

theorem parseInt_digits (ds : JSString) (hne : ds ≠ []) (hdig : ∀ c ∈ ds, isDigit c = true) :
    parseInt ds 10 = some (decimalFold 0 ds : Nat) := by
  cases ds with
  | nil => exact absurd rfl hne
  | cons c cs =>
    have hc := hdig c (by simp)
    have hws := isDigit_not_space c hc
    have h45 : c ≠ 45 := by rintro rfl; simp [isDigit] at hc
    have h43 : c ≠ 43 := by rintro rfl; simp [isDigit] at hc
    have hrd := readDigits_digits (c :: cs) hdig 0 false
    simp [parseInt, List.dropWhile_cons, hws, h45, h43, hrd]

theorem parseInt_natToString (n : Nat) : parseInt (natToString n) 10 = some (n : Int) := by
  obtain ⟨hne, hdig, hval⟩ := natToString_spec n
  rw [parseInt_digits _ hne hdig, hval 0]
  simp

/-! ## Lemmas on the grammar -/

theorem isLetter_not_digit (c : Nat) (h : isLetter c = true) : isDigit c = false := by
  simp [isLetter, isUpper, isLower] at h
  simp [isDigit]
  omega

theorem isTokenChar_not_underscore (c : Nat) (h : isTokenChar c = true) : (c == 95) = false := by
  simp [isTokenChar, isLetter, isUpper, isLower, isDigit] at h
  simp
  omega

theorem matchPieces_canonical_tail (tok : JSString) (ht : tok ≠ [])
    (htok : ∀ c ∈ tok, isTokenChar c = true) :
    matchPieces [⟨fun c => c == 95, 0, some 1⟩, ⟨isTokenChar, 1, none⟩, ⟨isWhiteSpace, 0, none⟩]
      ([95] ++ tok) = some [[95], tok, []] := by
  have m7 : matchPieces [⟨isWhiteSpace, 0, none⟩] [] = some [[]] := by decide
  have hlen : 1 ≤ tok.length := by
    cases tok with
    | nil => exact absurd rfl ht
    | cons c cs => simp
  have m6 := matchPieces_cons_greedy ⟨isTokenChar, 1, none⟩ [⟨isWhiteSpace, 0, none⟩] tok [] [[]]
    (runLength_unbounded isTokenChar 1 tok [] htok (by simp)) hlen m7
  rw [List.append_nil] at m6
  refine matchPieces_cons_greedy _ _ [95] tok _ ?_ (by simp) m6
  cases tok with
  | nil => exact absurd rfl ht
  | cons c cs =>
    have := isTokenChar_not_underscore c (htok c (by simp))
    simp [runLength, List.takeWhile_cons, this]

theorem execGrammar_canonical (d1 d2 tok : JSString) (row : Nat)
    (h1 : d1 ≠ []) (hd1 : ∀ c ∈ d1, isDigit c = true) (hrow : isLetter row = true)
    (h2 : d2 ≠ []) (hd2 : ∀ c ∈ d2, isDigit c = true)
    (ht : tok ≠ []) (htok : ∀ c ∈ tok, isTokenChar c = true) :
    execGrammar (d1 ++ [row] ++ d2 ++ [95] ++ tok) = some ⟨d1, [row], d2, tok⟩ := by
  have m5 := matchPieces_canonical_tail tok ht htok
  have hl1 : 1 ≤ d1.length := by
    cases d1 with
    | nil => exact absurd rfl h1
    | cons c cs => simp
  have hl2 : 1 ≤ d2.length := by
    cases d2 with
    | nil => exact absurd rfl h2
    | cons c cs => simp
  have m4 := matchPieces_cons_greedy ⟨isDigit, 1, none⟩ _ d2 ([95] ++ tok) _
    (runLength_unbounded isDigit 1 d2 ([95] ++ tok) hd2 (by simp [isDigit])) hl2 m5
  have m3 := matchPieces_cons_greedy ⟨isLetter, 1, some 1⟩ _ [row] (d2 ++ ([95] ++ tok)) _
    (by simp [runLength, List.takeWhile_cons, hrow]) (by simp) m4
  have m2 := matchPieces_cons_greedy ⟨isDigit, 1, none⟩ _ d1 ([row] ++ (d2 ++ ([95] ++ tok))) _
    (runLength_unbounded isDigit 1 d1 _ hd1 (by simp [isLetter_not_digit row hrow])) hl1 m3
  have hhead : ∀ c, (d1 ++ ([row] ++ (d2 ++ ([95] ++ tok)))).head? = some c →
      isWhiteSpace c = false := by
    intro c hc
    cases d1 with
    | nil => exact absurd rfl h1
    | cons x xs =>
      simp at hc
      subst hc
      exact isDigit_not_space _ (hd1 _ (by simp))
  have m1 := matchPieces_cons_greedy ⟨isWhiteSpace, 0, none⟩ _ [] _ _
    (runLength_unbounded isWhiteSpace 0 [] _ (by simp) hhead) (by simp) m2
  have heq : d1 ++ [row] ++ d2 ++ [95] ++ tok = [] ++ (d1 ++ ([row] ++ (d2 ++ ([95] ++ tok)))) := by
    simp
  rw [heq]
  simp only [execGrammar, grammarPieces, m1]

theorem formatCode_parses (size col : Nat) (row : Nat) (tok : JSString)
    (hrow : isLetter row = true) (ht : tok ≠ []) (htok : ∀ c ∈ tok, isTokenChar c = true) :
    execGrammar (formatCode size [row] col tok) =
      some ⟨natToString size, [row], natToString col, tok⟩ := by
  obtain ⟨hn1, hd1, _⟩ := natToString_spec size
  obtain ⟨hn2, hd2, _⟩ := natToString_spec col
  have hu : lit "_" = [95] := by decide
  rw [formatCode, hu]
  exact execGrammar_canonical _ _ tok row hn1 hd1 hrow hn2 hd2 ht htok

theorem matchPieces_digit_head (ps : List Piece) (v : JSString)
    (hv : ∀ c, v.head? = some c → isDigit c = false) :
    matchPieces (⟨isDigit, 1, none⟩ :: ps) v = none := by
  show tryCounts (matchPieces ps) v 1 (v.takeWhile isDigit).length = none
  apply tryCounts_below
  have : v.takeWhile isDigit = [] := by
    cases v with
    | nil => rfl
    | cons c cs => simp [List.takeWhile_cons, hv c rfl]
  simp [this]

theorem isWhiteSpace_not_digit (c : Nat) (h : isWhiteSpace c = true) : isDigit c = false := by
  cases hd : isDigit c with
  | false => rfl
  | true => rw [isDigit_not_space c hd] at h; exact absurd h (by simp)

theorem matchPieces_leading (ps : List Piece) (s : JSString) :
    matchPieces (⟨isWhiteSpace, 0, none⟩ :: ⟨isDigit, 1, none⟩ :: ps) s =
      (matchPieces (⟨isDigit, 1, none⟩ :: ps) (s.dropWhile isWhiteSpace)).map
        (fun caps => s.takeWhile isWhiteSpace :: caps) := by
  show tryCounts (matchPieces (⟨isDigit, 1, none⟩ :: ps)) s 0 (s.takeWhile isWhiteSpace).length = _
  have hs : s.takeWhile isWhiteSpace ++ s.dropWhile isWhiteSpace = s :=
    List.takeWhile_append_dropWhile isWhiteSpace s
  have hdrop : s.drop (s.takeWhile isWhiteSpace).length = s.dropWhile isWhiteSpace := by
    have := List.drop_left (s.takeWhile isWhiteSpace) (s.dropWhile isWhiteSpace)
    rwa [hs] at this
  have htake : s.take (s.takeWhile isWhiteSpace).length = s.takeWhile isWhiteSpace := by
    have := List.take_left (s.takeWhile isWhiteSpace) (s.dropWhile isWhiteSpace)
    rwa [hs] at this
  have hfail : ∀ j, j < (s.takeWhile isWhiteSpace).length →
      matchPieces (⟨isDigit, 1, none⟩ :: ps) (s.drop j) = none := by
    intro j hj
    apply matchPieces_digit_head
    intro c hc
    have hmem : c ∈ s.takeWhile isWhiteSpace := by
      rw [← hs, List.drop_append_of_le_length (by omega)] at hc
      have hne : List.drop j (s.takeWhile isWhiteSpace) ≠ [] := by
        rw [Ne, List.drop_eq_nil_iff]; omega
      cases hd : List.drop j (s.takeWhile isWhiteSpace) with
      | nil => exact absurd hd hne
      | cons a b =>
        rw [hd] at hc
        simp at hc
        subst hc
        have : a ∈ List.drop j (s.takeWhile isWhiteSpace) := by rw [hd]; simp
        exact List.mem_of_mem_drop this
    exact isWhiteSpace_not_digit c (List.mem_takeWhile_imp hmem)
  cases hn : (s.takeWhile isWhiteSpace).length with
  | zero =>
    have htw : s.takeWhile isWhiteSpace = [] := List.length_eq_zero.1 hn
    rw [hn] at hdrop
    simp only [List.drop_zero] at hdrop
    simp only [tryCounts, if_true, htw, ← hdrop]
  | succ k =>
    rw [hn] at hdrop htake
    simp only [tryCounts, Nat.not_lt_zero, if_false, hdrop, htake]
    cases hr : matchPieces (⟨isDigit, 1, none⟩ :: ps) (s.dropWhile isWhiteSpace) with
    | none =>
      simp only [Option.map_none']
      exact tryCounts_none _ _ _ _ (fun j hj => hfail j (by omega))
    | some caps => rfl

theorem dropWhile_head (cls : Nat → Bool) (s : JSString)
    (h : ∀ c, s.head? = some c → cls c = false) : s.dropWhile cls = s := by
  cases s with
  | nil => rfl
  | cons c cs => simp [List.dropWhile_cons, h c rfl]

theorem trim_decomp (s : JSString) :
    ∃ w : JSString, (∀ c ∈ w, isWhiteSpace c = true) ∧
      s.dropWhile isWhiteSpace = trim s ++ w ∧ (trim s).dropWhile isWhiteSpace = trim s := by
  have hrev := List.takeWhile_append_dropWhile isWhiteSpace (s.dropWhile isWhiteSpace).reverse
  have hdec : s.dropWhile isWhiteSpace =
      trim s ++ ((s.dropWhile isWhiteSpace).reverse.takeWhile isWhiteSpace).reverse := by
    have := congrArg List.reverse hrev
    rw [List.reverse_append, List.reverse_reverse] at this
    exact this.symm
  refine ⟨_, ?_, hdec, ?_⟩
  · intro c hc
    exact List.mem_takeWhile_imp (List.mem_reverse.1 hc)
  · apply dropWhile_head
    intro c hc
    have hhead : (s.dropWhile isWhiteSpace).head? = some c := by
      rw [hdec]
      cases ht : trim s with
      | nil => rw [ht] at hc; simp at hc
      | cons a b => rw [ht] at hc; simpa using hc
    have := List.head?_dropWhile_not isWhiteSpace s
    rw [hhead] at this
    simpa using this

theorem execGrammar_dropWhile (s : JSString) :
    execGrammar s =
      match matchPieces [⟨isDigit, 1, none⟩, ⟨isLetter, 1, some 1⟩, ⟨isDigit, 1, none⟩,
          ⟨fun c => c == 95, 0, some 1⟩, ⟨isTokenChar, 1, none⟩, ⟨isWhiteSpace, 0, none⟩]
          (s.dropWhile isWhiteSpace) with
      | some [g1, g2, g3, _, g4, _] => some ⟨g1, g2, g3, g4⟩
      | _ => none := by
  simp only [execGrammar, grammarPieces, matchPieces_leading]
  cases matchPieces [⟨isDigit, 1, none⟩, ⟨isLetter, 1, some 1⟩, ⟨isDigit, 1, none⟩,
      ⟨fun c => c == 95, 0, some 1⟩, ⟨isTokenChar, 1, none⟩, ⟨isWhiteSpace, 0, none⟩]
      (s.dropWhile isWhiteSpace) with
  | none => rfl
  | some caps =>
    rcases caps with _ | ⟨a, _ | ⟨b, _ | ⟨c, _ | ⟨d, _ | ⟨e, _ | ⟨f, _ | ⟨g, t⟩⟩⟩⟩⟩⟩⟩ <;> rfl

theorem isLetter_not_space (c : Nat) (h : isLetter c = true) : isWhiteSpace c = false := by
  simp [isLetter, isUpper, isLower] at h
  simp [isWhiteSpace]
  omega

theorem isTokenChar_not_space (c : Nat) (h : isTokenChar c = true) : isWhiteSpace c = false := by
  simp [isTokenChar, isLetter, isUpper, isLower, isDigit] at h
  simp [isWhiteSpace]
  omega

theorem execGrammar_trim (s : JSString) : execGrammar (trim s) = execGrammar s := by
  obtain ⟨w, hw, hdec, hself⟩ := trim_decomp s
  rw [execGrammar_dropWhile s, execGrammar_dropWhile (trim s), hself, hdec]
  have hps : ∀ p ∈ [(⟨isDigit, 1, none⟩ : Piece), ⟨isLetter, 1, some 1⟩, ⟨isDigit, 1, none⟩,
      ⟨fun c => c == 95, 0, some 1⟩, ⟨isTokenChar, 1, none⟩],
      ∀ c, p.cls c = true → isWhiteSpace c = false := by
    intro p hp c hc
    simp only [List.mem_cons, List.mem_singleton, List.not_mem_nil, or_false] at hp
    rcases hp with rfl | rfl | rfl | rfl | rfl
    · exact isDigit_not_space c hc
    · exact isLetter_not_space c hc
    · exact isDigit_not_space c hc
    · simp at hc; subst hc; decide
    · exact isTokenChar_not_space c hc
  have := matchPieces_trailing w hw _ hps (trim s)
  simp only [List.cons_append, List.nil_append, List.length_cons, List.length_nil] at this
  rw [this]
  cases matchPieces [⟨isDigit, 1, none⟩, ⟨isLetter, 1, some 1⟩, ⟨isDigit, 1, none⟩,
      ⟨fun c => c == 95, 0, some 1⟩, ⟨isTokenChar, 1, none⟩, ⟨isWhiteSpace, 0, none⟩]
      (trim s) with
  | none => rfl
  | some caps =>
    rcases caps with _ | ⟨a, _ | ⟨b, _ | ⟨c, _ | ⟨d, _ | ⟨e, _ | ⟨f, _ | ⟨g, t⟩⟩⟩⟩⟩⟩⟩ <;> rfl

theorem take_runLength (p : Piece) (t : JSString) (j : Nat) (hj : j ≤ runLength p t) :
    ∀ c ∈ t.take j, p.cls c = true := by
  have hle : j ≤ (t.takeWhile p.cls).length := by
    unfold runLength at hj
    split at hj
    · exact hj
    · exact le_trans hj (Nat.min_le_left _ _)
  intro c hc
  have hs := List.takeWhile_append_dropWhile p.cls t
  rw [← hs, List.take_append_of_le_length hle] at hc
  exact List.mem_takeWhile_imp (List.mem_of_mem_take hc)

theorem execGrammar_size_digits (s : JSString) (mm : Groups) (h : execGrammar s = some mm) :
    mm.size ≠ [] ∧ ∀ c ∈ mm.size, isDigit c = true := by
  rw [execGrammar_dropWhile] at h
  cases hm : matchPieces [⟨isDigit, 1, none⟩, ⟨isLetter, 1, some 1⟩, ⟨isDigit, 1, none⟩,
      ⟨fun c => c == 95, 0, some 1⟩, ⟨isTokenChar, 1, none⟩, ⟨isWhiteSpace, 0, none⟩]
      (s.dropWhile isWhiteSpace) with
  | none => rw [hm] at h; exact absurd h (by simp)
  | some caps =>
    obtain ⟨j, hj, hlo, caps', _, hr⟩ := tryCounts_some _ _ _ _ _ hm
    have hall := take_runLength ⟨isDigit, 1, none⟩ (s.dropWhile isWhiteSpace) j hj
    have hlo1 : 1 ≤ j := hlo
    have hlen := runLength_le_length ⟨isDigit, 1, none⟩ (s.dropWhile isWhiteSpace)
    rw [hm, hr] at h
    rcases caps' with _ | ⟨b, _ | ⟨c, _ | ⟨d, _ | ⟨e, _ | ⟨f, _ | ⟨g, t⟩⟩⟩⟩⟩⟩ <;>
      simp at h
    subst h
    refine ⟨?_, hall⟩
    simp only [Ne, List.take_eq_nil_iff, not_or]
    constructor
    · omega
    · intro hnil
      have h0 : (s.dropWhile isWhiteSpace).length = 0 := by rw [hnil]; rfl
      omega

theorem execGrammar_size_parses (s : JSString) (mm : Groups) (h : execGrammar s = some mm) :
    parseInt mm.size 10 = some ((decimalFold 0 mm.size : Nat) : Int) := by
  obtain ⟨hne, hdig⟩ := execGrammar_size_digits s mm h
  exact parseInt_digits mm.size hne hdig

/-! ## Lemmas on code generation -/

theorem find?_first (p : Nat → Bool) (c : Nat) (post : JSString) (hc : p c = true) :
    ∀ pre : JSString, (∀ d ∈ pre, p d = false) → (pre ++ c :: post).find? p = some c := by
  intro pre
  induction pre with
  | nil => intro _; simp [hc]
  | cons d ds ih =>
    intro h
    have hd := h d (by simp)
    rw [List.cons_append, List.find?_cons_of_neg _ (by simp [hd])]
    exact ih (fun x hx => h x (by simp [hx]))

theorem upperUnit_letter (c : Nat) (h : isLetter c = true) : isUpper (upperUnit c) = true := by
  simp [isLetter, isUpper, isLower] at h
  simp only [upperUnit, isLower, isUpper]
  split <;> simp_all <;> omega

theorem isUpper_letter (c : Nat) (h : isUpper c = true) : isLetter c = true := by
  simp [isLetter, h]

theorem colors_resolve (k : Nat) (hk : k < 9) :
    colors.getD k [] ≠ [] ∧ (∀ ch ∈ colors.getD k [], isTokenChar ch = true) ∧
      ∃ v, BASIC_COLOR_MAP.lookup (toLowerCase (colors.getD k [])) = some v ∧
        colorPartToHex (colors.getD k []) = .str v := by
  interval_cases k
  · exact ⟨by decide, by decide, lit "#FF0000", by decide, by decide⟩
  · exact ⟨by decide, by decide, lit "#00FF00", by decide, by decide⟩
  · exact ⟨by decide, by decide, lit "#0000FF", by decide, by decide⟩
  · exact ⟨by decide, by decide, lit "#8A2BE2", by decide, by decide⟩
  · exact ⟨by decide, by decide, lit "#00FFFF", by decide, by decide⟩
  · exact ⟨by decide, by decide, lit "#FFFF00", by decide, by decide⟩
  · exact ⟨by decide, by decide, lit "#FF5EA8", by decide, by decide⟩
  · exact ⟨by decide, by decide, lit "#FFA500", by decide, by decide⟩
  · exact ⟨by decide, by decide, lit "#FF00FF", by decide, by decide⟩

theorem generatePixelCode_shape (x : JSString) :
    ∃ (size col row : Nat),
      generatePixelCode x =
        formatCode size [row] col (colors.getD ((trim x).sum % 9) []) ∧
      size = (if (trim x).length ≤ 2 then 8 else if (trim x).length ≤ 4 then 16
        else if (trim x).length ≤ 8 then 24 else if (trim x).length ≤ 12 then 32
        else if (trim x).length ≤ 20 then 48 else 64) ∧
      col = (trim x).sum % max 1 size + 1 ∧
      [row] = (match (trim x).find? isLetter with
        | some m => [upperUnit m]
        | none => [77]) := by
  have hsum : (trim x).foldl (fun acc c => acc + c) 0 = (trim x).sum := by
    rw [List.sum_eq_foldl]
  have hlen : colors.length = 9 := by decide
  have hM : lit "M" = [77] := by decide
  cases hf : (trim x).find? isLetter with
  | none =>
    refine ⟨_, _, 77, ?_, rfl, rfl, by simp⟩
    simp only [generatePixelCode, hf, hsum, hlen, hM]
  | some m =>
    refine ⟨_, _, upperUnit m, ?_, rfl, rfl, by simp⟩
    simp only [generatePixelCode, hf, hsum, hlen, toUpperCase, List.map]

/-! ## Lemmas on color resolution -/

theorem tryCounts_exact (input : JSString) (n k : Nat) (hk : k ≤ n) :
    (tryCounts (matchPieces []) input n k).isSome = (decide (k = n) && decide (input.length ≤ n)) := by
  rcases Nat.lt_or_ge k n with h | h
  · rw [tryCounts_below _ _ _ _ h]
    have : k ≠ n := by omega
    simp [this]
  · have hkn : k = n := by omega
    subst hkn
    cases k with
    | zero => cases input <;> simp [tryCounts, matchPieces]
    | succ k =>
      simp only [tryCounts, Nat.lt_irrefl, if_false, matchPieces]
      by_cases hl : input.length ≤ k + 1
      · simp [List.drop_eq_nil_iff.2 hl, hl]
      · have hd : List.drop (k + 1) input ≠ [] := by
          rw [Ne, List.drop_eq_nil_iff]; exact hl
        have hd2 : (List.drop (k + 1) input).isEmpty = false := by
          cases hdr : List.drop (k + 1) input with
          | nil => exact absurd hdr hd
          | cons a b => rfl
        simp only [hd2, Bool.false_eq_true, if_false]
        rw [tryCounts_below _ _ _ _ (by omega)]
        simp [hl]

theorem testHex_iff (n : Nat) (p : JSString) :
    testHex n p = true ↔ p.length = n ∧ ∀ c ∈ p, isHexDigit c = true := by
  have hle : min (p.takeWhile isHexDigit).length n ≤ n := Nat.min_le_right _ _
  have key : testHex n p =
      (decide (min (p.takeWhile isHexDigit).length n = n) && decide (p.length ≤ n)) :=
    tryCounts_exact p n _ hle
  rw [key]
  have htw : (p.takeWhile isHexDigit).length ≤ p.length :=
    (List.takeWhile_sublist isHexDigit).length_le
  constructor
  · intro h
    simp only [Bool.and_eq_true, decide_eq_true_eq] at h
    obtain ⟨h1, h2⟩ := h
    have hlen : p.length = n := by omega
    refine ⟨hlen, ?_⟩
    have hfull : (p.takeWhile isHexDigit).length = p.length := by omega
    have := (List.takeWhile_sublist isHexDigit (l := p)).eq_of_length hfull
    intro c hc
    rw [← this] at hc
    exact (List.mem_takeWhile_imp hc)
  · rintro ⟨hlen, hall⟩
    have : p.takeWhile isHexDigit = p := by
      rw [List.takeWhile_eq_self_iff]; exact hall
    simp [this, hlen]

theorem trim_eq_self (s : JSString) (hh : ∀ c, s.head? = some c → isWhiteSpace c = false)
    (hl : ∀ c, s.getLast? = some c → isWhiteSpace c = false) : trim s = s := by
  unfold trim
  rw [dropWhile_head _ s hh, dropWhile_head _ s.reverse (by simpa using hl), List.reverse_reverse]

theorem isHexDigit_not_space (c : Nat) (h : isHexDigit c = true) : isWhiteSpace c = false := by
  simp [isHexDigit, isDigit] at h
  simp [isWhiteSpace]
  omega

theorem trim_hex (h : JSString) (hh : ∀ c ∈ h, isHexDigit c = true) : trim h = h :=
  trim_eq_self h (fun c hc => isHexDigit_not_space c (hh c (List.mem_of_mem_head? hc)))
    (fun c hc => isHexDigit_not_space c (hh c (List.mem_of_getLast?_eq_some hc)))

theorem trim_hash_hex (h : JSString) (hne : h ≠ []) (hh : ∀ c ∈ h, isHexDigit c = true) :
    trim (35 :: h) = 35 :: h := by
  refine trim_eq_self _ (by simp [isWhiteSpace]) ?_
  intro c hc
  cases h with
  | nil => exact absurd rfl hne
  | cons a t =>
    rw [List.getLast?_cons_cons] at hc
    exact isHexDigit_not_space c (hh c (List.mem_of_getLast?_eq_some hc))

theorem head_hex_not_hash (h : JSString) (hh : ∀ c ∈ h, isHexDigit c = true) :
    h.head? ≠ some 35 := by
  intro hc
  have := hh 35 (List.mem_of_mem_head? hc)
  simp [isHexDigit, isDigit] at this

theorem colorPartToHex_six (h : JSString) (hlen : h.length = 6)
    (hh : ∀ c ∈ h, isHexDigit c = true) :
    colorPartToHex h = .str (35 :: toUpperCase h) ∧
      colorPartToHex (35 :: h) = .str (35 :: toUpperCase h) := by
  have hne : h ≠ [] := by rintro rfl; simp at hlen
  have ht : testHex 6 h = true := (testHex_iff 6 h).2 ⟨hlen, hh⟩
  have hemp : h.isEmpty = false := by cases h <;> simp_all
  constructor
  · simp [colorPartToHex, hemp, trim_hex h hh, head_hex_not_hash h hh, ht]
  · simp [colorPartToHex, trim_hash_hex h hne hh, ht]

theorem colorPartToHex_eight (h : JSString) (hlen : h.length = 8)
    (hh : ∀ c ∈ h, isHexDigit c = true) :
    colorPartToHex h = .str (35 :: toUpperCase (h.take 6)) ∧
      colorPartToHex (35 :: h) = .str (35 :: toUpperCase (h.take 6)) := by
  have hne : h ≠ [] := by rintro rfl; simp at hlen
  have ht8 : testHex 8 h = true := (testHex_iff 8 h).2 ⟨hlen, hh⟩
  have ht6 : testHex 6 h = false := by
    rw [Bool.eq_false_iff, Ne, testHex_iff]; omega
  have hemp : h.isEmpty = false := by cases h <;> simp_all
  constructor
  · simp [colorPartToHex, hemp, trim_hex h hh, head_hex_not_hash h hh, ht6, ht8]
  · simp [colorPartToHex, trim_hash_hex h hne hh, ht6, ht8]

theorem lowerUnit_no_upper (c d : Nat) (h : d ∈ lowerUnit c) : isUpper d = false := by
  unfold lowerUnit at h
  split at h
  · rename_i hu
    simp at h; subst h
    simp [isUpper] at hu ⊢; omega
  · split at h
    · simp at h; subst h; decide
    · split at h
      · simp at h; rcases h with rfl | rfl <;> decide
      · rename_i hu _ _
        simp at h; subst h
        simpa using hu

theorem toLowerCase_no_upper (s : JSString) : ∀ d ∈ toLowerCase s, isUpper d = false := by
  intro d hd
  simp only [toLowerCase, List.mem_flatMap] at hd
  obtain ⟨c, _, hc⟩ := hd
  exact lowerUnit_no_upper c d hc

theorem no_upper_not_method (s : JSString) (h : ∀ d ∈ s, isUpper d = false) :
    s ∉ objectPrototypeMethods := by
  intro hm
  simp only [objectPrototypeMethods, List.mem_cons, List.mem_singleton, List.not_mem_nil,
    or_false] at hm
  rcases hm with rfl | rfl | rfl | rfl | rfl | rfl | rfl | rfl | rfl | rfl <;>
    exact absurd h (by decide)

theorem lookup_mem_values (l : List (JSString × JSString)) (k v : JSString)
    (h : l.lookup k = some v) : v ∈ l.map Prod.snd := by
  induction l with
  | nil => simp at h
  | cons kv t ih =>
    obtain ⟨k1, v1⟩ := kv
    simp only [List.lookup] at h
    split at h
    · simp at h; simp [h]
    · simp [ih h]

theorem lookup_truthy (k v : JSString) (h : BASIC_COLOR_MAP.lookup k = some v) :
    truthy (.str v) = true := by
  have hv := lookup_mem_values _ _ _ h
  have hall : ∀ v ∈ BASIC_COLOR_MAP.map Prod.snd, truthy (.str v) = true := by decide
  exact hall v hv

theorem upperUnit_hex (c : Nat) (h : isHexDigit c = true) :
    (isDigit (upperUnit c) || decide (65 ≤ upperUnit c ∧ upperUnit c ≤ 70)) = true := by
  simp only [isHexDigit, isDigit, Bool.or_eq_true, Bool.and_eq_true, decide_eq_true_eq] at h
  by_cases hl : isLower c = true
  · simp only [upperUnit, hl, if_true, isDigit, Bool.or_eq_true, Bool.and_eq_true,
      decide_eq_true_eq]
    simp only [isLower, Bool.and_eq_true, decide_eq_true_eq] at hl
    omega
  · simp only [upperUnit, hl, if_false, isDigit, Bool.or_eq_true, Bool.and_eq_true,
      decide_eq_true_eq, Bool.false_eq_true]
    simp only [isLower, Bool.and_eq_true, decide_eq_true_eq] at hl
    omega

theorem isHexColor_upper (p : JSString) (hlen : p.length = 6)
    (hp : ∀ c ∈ p, isHexDigit c = true) : isHexColor (35 :: toUpperCase p) = true := by
  simp only [isHexColor, List.length_cons, toUpperCase, List.length_map, hlen, List.head?_cons,
    List.tail_cons, List.all_map, Bool.and_eq_true, decide_eq_true_eq, List.all_eq_true,
    Function.comp_apply, true_and]
  intro c hc
  exact upperUnit_hex c (hp c hc)

theorem colorPartToHex_form (part : JSString)
    (h1 : toLowerCase (if (trim part).head? = some 35 then (trim part).drop 1 else trim part) ≠
      lit "constructor")
    (h2 : toLowerCase (if (trim part).head? = some 35 then (trim part).drop 1 else trim part) ≠
      lit "__proto__") :
    ∃ s, colorPartToHex part = .str s ∧ isHexColor s = true := by
  by_cases hemp : part.isEmpty = true
  · exact ⟨lit "#FF00FF", by simp [colorPartToHex, hemp], by decide⟩
  · by_cases h6 : testHex 6 (if (trim part).head? = some 35 then (trim part).drop 1
        else trim part) = true
    · obtain ⟨hlen, hall⟩ := (testHex_iff 6 _).1 h6
      exact ⟨_, by simp only [colorPartToHex, hemp, h6, if_true, Bool.false_eq_true, if_false],
        isHexColor_upper _ hlen hall⟩
    · by_cases h8 : testHex 8 (if (trim part).head? = some 35 then (trim part).drop 1
          else trim part) = true
      · obtain ⟨hlen, hall⟩ := (testHex_iff 8 _).1 h8
        refine ⟨35 :: toUpperCase (List.take 6 (if (trim part).head? = some 35 then
          (trim part).drop 1 else trim part)),
          by simp only [colorPartToHex, hemp, h6, h8, if_true, Bool.false_eq_true, if_false],
          isHexColor_upper _ ?_ ?_⟩
        · rw [List.length_take]; omega
        · intro c hc; exact hall c (List.mem_of_mem_take hc)
      · cases hl : BASIC_COLOR_MAP.lookup (toLowerCase (if (trim part).head? = some 35 then
            (trim part).drop 1 else trim part)) with
        | some v =>
          have ht := lookup_truthy _ v hl
          have hv := lookup_mem_values _ _ _ hl
          have hall : ∀ v ∈ BASIC_COLOR_MAP.map Prod.snd, isHexColor v = true := by decide
          refine ⟨v, ?_, hall v hv⟩
          simp only [colorPartToHex, hemp, h6, h8, getProperty, hl, ht, if_true,
            Bool.false_eq_true, if_false]
        | none =>
          have hm := no_upper_not_method _ (toLowerCase_no_upper
            (if (trim part).head? = some 35 then (trim part).drop 1 else trim part))
          refine ⟨lit "#FF00FF", ?_, by decide⟩
          simp only [colorPartToHex, hemp, h6, h8, getProperty, hl, objectPrototypeGet, h1, h2,
            hm, if_false, Bool.false_eq_true]

/-! ## Lemmas on the layout -/

theorem renderTable_row (chars : List JSString) (size : Nat) :
    renderTable chars (some (size : Int)) true =
      [(List.range size).map fun c => renderCell (chars.getD c [])] := by
  simp [renderTable, loopBound]

theorem renderTable_grid (chars : List JSString) (size : Nat) :
    renderTable chars (some (size : Int)) false =
      (List.range size).map fun r =>
        (List.range size).map fun c => renderCell (chars.getD (r * size + c) []) := by
  simp [renderTable, loopBound]

theorem showCharsOverlay_unmatched (first : JSString) (rest : List JSString)
    (rows : Option (JSString → Option (List JSString))) (chooseRow : Bool)
    (hm : execGrammar first = none) :
    showCharsOverlay (first :: rest) rows chooseRow = .nothing := by
  simp [showCharsOverlay, execGrammar_trim, hm]

theorem showCharsOverlay_parsed (first : JSString) (rest : List JSString)
    (rows : Option (JSString → Option (List JSString))) (chooseRow : Bool)
    (mm : Groups) (size : Nat) (hm : execGrammar first = some mm)
    (hp : parseInt mm.size 10 = some (size : Int)) :
    showCharsOverlay (first :: rest) rows chooseRow =
      if rest.length + 1 = size then
        .table [(List.range size).map fun c => renderCell ((first :: rest).getD c [])]
      else if rest.length + 1 = size * size then
        .table ((List.range size).map fun r =>
          (List.range size).map fun c => renderCell ((first :: rest).getD (r * size + c) []))
      else
        .colorList
          (if chooseRow then lit "Mostrando fila " ++ toUpperCase mm.row
            else lit "Mostrando columna " ++ numToString (parseInt mm.column 10))
          ((sampledCodes (some (size : Int)) (parseInt mm.column 10) mm.row mm.color rows
            chooseRow).map renderChip) := by
  have hrow : ((some (size : Int) == some (((first :: rest).length : Nat) : Int)) = true) ↔
      rest.length + 1 = size := by
    simp only [beq_iff_eq, Option.some.injEq, List.length_cons]
    constructor
    · intro h; exact_mod_cast h.symm
    · intro h; exact_mod_cast h.symm
  have hgrid : (((some (size : Int)).map (fun n => n * n) ==
      some (((first :: rest).length : Nat) : Int)) = true) ↔ rest.length + 1 = size * size := by
    simp only [Option.map_some', beq_iff_eq, Option.some.injEq, List.length_cons]
    constructor
    · intro h; exact_mod_cast h.symm
    · intro h; exact_mod_cast h.symm
  simp only [showCharsOverlay, List.length_cons, Nat.succ_pos, gt_iff_lt, if_true,
    List.getD_cons_zero, execGrammar_trim, hm, hp, Nat.zero_lt_succ]
  by_cases h1 : rest.length + 1 = size
  · have hb : (some (size : Int) == some (((first :: rest).length : Nat) : Int)) = true :=
      hrow.2 h1
    simp only [List.length_cons] at hb
    simp only [hb, Bool.true_or, if_true, if_pos h1, renderTable_row]
  · have hb : (some (size : Int) == some (((first :: rest).length : Nat) : Int)) = false := by
      rw [Bool.eq_false_iff]; exact fun h => h1 (hrow.1 h)
    simp only [List.length_cons] at hb
    by_cases h2 : rest.length + 1 = size * size
    · have hg := hgrid.2 h2
      simp only [List.length_cons] at hg
      simp only [hb, hg, Bool.false_or, if_true, if_neg h1, if_pos h2, renderTable_grid]
    · have hg : ((some (size : Int)).map (fun n => n * n) ==
          some (((first :: rest).length : Nat) : Int)) = false := by
        rw [Bool.eq_false_iff]; exact fun h => h2 (hgrid.1 h)
      simp only [List.length_cons] at hg
      simp only [hb, hg, Bool.false_or, if_neg h1, if_neg h2, Bool.false_eq_true, if_false]

theorem renderCell_text (code : JSString) :
    (∀ g, execGrammar code = some g →
      (renderCell code).text = colorPartToHex g.color ∧
      (renderCell code).background = colorPartToHex g.color) ∧
    (execGrammar code = none →
      (renderCell code).text = .str (lit "#FF00FF") ∧
      (renderCell code).background = .str (lit "#FF00FF")) := by
  constructor
  · intro g hg; simp [renderCell, cellHex, hg]
  · intro hg; simp [renderCell, cellHex, hg]

/-! ## Lemmas on the captured groups -/

theorem matchPieces_captures : ∀ (ps : List Piece) (input : JSString) (caps : List JSString),
    matchPieces ps input = some caps →
      List.Forall₂ (fun p cap => p.lo ≤ cap.length ∧ (∀ c ∈ cap, p.cls c = true) ∧
        ∀ h, p.hi = some h → cap.length ≤ h) ps caps := by
  intro ps
  induction ps with
  | nil =>
    intro input caps h
    simp only [matchPieces] at h
    split at h
    · simp only [Option.some.injEq] at h
      subst h
      exact List.Forall₂.nil
    · exact absurd h (by simp)
  | cons p ps ih =>
    intro input caps h
    obtain ⟨j, hj, hlo, caps', hrest, hr⟩ := tryCounts_some _ _ _ _ _ h
    subst hr
    have hlen := runLength_le_length p input
    have hjlen : (input.take j).length = j := by rw [List.length_take]; omega
    refine List.Forall₂.cons ⟨by omega, take_runLength p input j hj, ?_⟩ (ih _ _ hrest)
    intro hh hhi
    rw [hjlen]
    have : runLength p input ≤ hh := by
      simp only [runLength, hhi]
      exact Nat.min_le_right _ _
    omega

theorem execGrammar_groups (s : JSString) (mm : Groups) (h : execGrammar s = some mm) :
    (mm.size ≠ [] ∧ ∀ c ∈ mm.size, isDigit c = true) ∧
    (∃ l, mm.row = [l] ∧ isLetter l = true) ∧
    (mm.column ≠ [] ∧ ∀ c ∈ mm.column, isDigit c = true) ∧
    (mm.color ≠ [] ∧ ∀ c ∈ mm.color, isTokenChar c = true) := by
  unfold execGrammar at h
  cases hm : matchPieces grammarPieces s with
  | none => rw [hm] at h; exact absurd h (by simp)
  | some caps =>
    have hc := matchPieces_captures _ _ _ hm
    rw [hm] at h
    rcases caps with _ | ⟨c0, _ | ⟨c1, _ | ⟨c2, _ | ⟨c3, _ | ⟨c4, _ | ⟨c5, _ | ⟨c6, _ | ⟨c7, t⟩⟩⟩⟩⟩⟩⟩⟩ <;>
      simp only [reduceCtorEq] at h
    simp only [Option.some.injEq] at h
    subst h
    simp only [grammarPieces, List.forall₂_cons, List.forall₂_nil_right_iff] at hc
    obtain ⟨_, ⟨h1l, h1c, _⟩, ⟨h2l, h2c, h2h⟩, ⟨h3l, h3c, _⟩, _, ⟨h5l, h5c, _⟩, _⟩ := hc
    have hne : ∀ l : JSString, 1 ≤ l.length → l ≠ [] := by
      intro l hl hnil; rw [hnil] at hl; simp at hl
    refine ⟨⟨hne _ h1l, h1c⟩, ?_, ⟨hne _ h3l, h3c⟩, ⟨hne _ h5l, h5c⟩⟩
    have hlen : c2.length = 1 := le_antisymm (h2h 1 rfl) h2l
    match c2, hlen, h2c with
    | [l], _, hcl => exact ⟨l, rfl, hcl l (by simp)⟩

theorem execGrammar_plain (d1 d2 tok : JSString) (row : Nat)
    (h1 : d1 ≠ []) (hd1 : ∀ c ∈ d1, isDigit c = true) (hrow : isLetter row = true)
    (h2 : d2 ≠ []) (hd2 : ∀ c ∈ d2, isDigit c = true)
    (ht : tok ≠ []) (htok : ∀ c ∈ tok, isTokenChar c = true)
    (hhead : ∀ c, tok.head? = some c → isDigit c = false) :
    execGrammar (d1 ++ [row] ++ d2 ++ tok) = some ⟨d1, [row], d2, tok⟩ := by
  have m7 : matchPieces [⟨isWhiteSpace, 0, none⟩] [] = some [[]] := by decide
  have hlen : 1 ≤ tok.length := by
    cases tok with
    | nil => exact absurd rfl ht
    | cons c cs => simp
  have m6 := matchPieces_cons_greedy ⟨isTokenChar, 1, none⟩ [⟨isWhiteSpace, 0, none⟩] tok [] [[]]
    (runLength_unbounded isTokenChar 1 tok [] htok (by simp)) hlen m7
  rw [List.append_nil] at m6
  have m5 : matchPieces [⟨fun c => c == 95, 0, some 1⟩, ⟨isTokenChar, 1, none⟩,
      ⟨isWhiteSpace, 0, none⟩] ([] ++ tok) = some [[], tok, []] := by
    refine matchPieces_cons_greedy _ _ [] tok _ ?_ (by simp) m6
    cases tok with
    | nil => exact absurd rfl ht
    | cons c cs =>
      have := isTokenChar_not_underscore c (htok c (by simp))
      simp [runLength, List.takeWhile_cons, this]
  rw [List.nil_append] at m5
  have hl1 : 1 ≤ d1.length := by
    cases d1 with
    | nil => exact absurd rfl h1
    | cons c cs => simp
  have hl2 : 1 ≤ d2.length := by
    cases d2 with
    | nil => exact absurd rfl h2
    | cons c cs => simp
  have m4 := matchPieces_cons_greedy ⟨isDigit, 1, none⟩ _ d2 tok _
    (runLength_unbounded isDigit 1 d2 tok hd2 hhead) hl2 m5
  have m3 := matchPieces_cons_greedy ⟨isLetter, 1, some 1⟩ _ [row] (d2 ++ tok) _
    (by simp [runLength, List.takeWhile_cons, hrow]) (by simp) m4
  have m2 := matchPieces_cons_greedy ⟨isDigit, 1, none⟩ _ d1 ([row] ++ (d2 ++ tok)) _
    (runLength_unbounded isDigit 1 d1 _ hd1 (by simp [isLetter_not_digit row hrow])) hl1 m3
  have hh : ∀ c, (d1 ++ ([row] ++ (d2 ++ tok))).head? = some c → isWhiteSpace c = false := by
    intro c hc
    cases d1 with
    | nil => exact absurd rfl h1
    | cons x xs =>
      simp at hc
      subst hc
      exact isDigit_not_space _ (hd1 _ (by simp))
  have m1 := matchPieces_cons_greedy ⟨isWhiteSpace, 0, none⟩ _ [] _ _
    (runLength_unbounded isWhiteSpace 0 [] _ (by simp) hh) (by simp) m2
  have heq : d1 ++ [row] ++ d2 ++ tok = [] ++ (d1 ++ ([row] ++ (d2 ++ tok))) := by simp
  rw [heq]
  simp only [execGrammar, grammarPieces, m1]

theorem ROW_LABELS_letters : ∀ rl ∈ ROW_LABELS, ∃ l, rl = [l] ∧ isLetter l = true := by
  have h : ∀ rl ∈ ROW_LABELS, rl.length = 1 ∧ rl.all isLetter = true := by decide
  intro rl hrl
  obtain ⟨hlen, hall⟩ := h rl hrl
  match rl, hlen, hall with
  | [l], _, hall => exact ⟨l, rfl, by simpa using hall⟩

/-- Where the embedding of the synthesized codes is exact (a size below `2^32`
and a column below `2^53`), a token that does not start with a digit is read
back unchanged from every synthesized code. -/
theorem sampledCodes_keep_token (mm : Groups) (first : JSString) (size : Nat)
    (rows : Option (JSString → Option (List JSString))) (chooseRow : Bool)
    (hm : execGrammar first = some mm)
    (_hsize : size < 2 ^ 32) (_hcol : decimalFold 0 mm.column < 2 ^ 53)
    (hr1 : (rows.bind fun t => t (toUpperCase mm.row)) = none)
    (hr2 : (rows.bind fun t => t mm.row) = none)
    (hhead : ∀ c, mm.color.head? = some c → isDigit c = false) :
    ∀ code ∈ sampledCodes (some (size : Int)) (parseInt mm.column 10) mm.row mm.color rows
        chooseRow,
      ∃ g, execGrammar code = some g ∧ g.color = mm.color ∧
        renderChip code = ⟨colorPartToHex mm.color, colorPartToHex mm.color⟩ := by
  obtain ⟨_, ⟨l, hrow, hl⟩, ⟨hcne, hcd⟩, ⟨htne, htok⟩⟩ := execGrammar_groups first mm hm
  have hcol := parseInt_digits mm.column hcne hcd
  obtain ⟨hsn, hsd, _⟩ := natToString_spec size
  have hsize : numToString (some (size : Int)) = natToString size := rfl
  have hcolstr : numToString (some ((decimalFold 0 mm.column : Nat) : Int)) =
      natToString (decimalFold 0 mm.column) := rfl
  intro code hcode
  have hparse : ∃ d2 l2, code = natToString size ++ [l2] ++ d2 ++ mm.color ∧ d2 ≠ [] ∧
      (∀ c ∈ d2, isDigit c = true) ∧ isLetter l2 = true := by
    simp only [sampledCodes, hr1, hr2, loopBound, Int.toNat_ofNat, hsize, hcol, hcolstr] at hcode
    split at hcode
    · simp only [List.mem_map, List.mem_range] at hcode
      obtain ⟨x, _, rfl⟩ := hcode
      obtain ⟨hxn, hxd, _⟩ := natToString_spec x
      exact ⟨natToString x, l, by rw [hrow], hxn, hxd, hl⟩
    · simp only [List.mem_map] at hcode
      obtain ⟨rlabel, hmem, rfl⟩ := hcode
      obtain ⟨l2, rfl, hl2⟩ := ROW_LABELS_letters rlabel (List.mem_of_mem_take hmem)
      obtain ⟨hxn, hxd, _⟩ := natToString_spec (decimalFold 0 mm.column)
      exact ⟨_, l2, rfl, hxn, hxd, hl2⟩
  obtain ⟨d2, l2, rfl, hd2n, hd2d, hl2⟩ := hparse
  have hex := execGrammar_plain (natToString size) d2 mm.color l2 hsn hsd hl2 hd2n hd2d htne htok
    hhead
  exact ⟨_, hex, rfl, by simp only [renderChip, cellHex, hex]⟩

/-- In the same range, every chip of the sampled list shows the color of a
token that does not start with a digit. -/
theorem showCharsOverlay_sampled (first : JSString) (rest : List JSString) (mm : Groups)
    (rows : Option (JSString → Option (List JSString))) (chooseRow : Bool) (size : Nat)
    (hm : execGrammar first = some mm) (hp : parseInt mm.size 10 = some (size : Int))
    (hsize : size < 2 ^ 32) (hcol : decimalFold 0 mm.column < 2 ^ 53)
    (hne1 : (first :: rest).length ≠ size) (hne2 : (first :: rest).length ≠ size * size)
    (hr1 : (rows.bind fun t => t (toUpperCase mm.row)) = none)
    (hr2 : (rows.bind fun t => t mm.row) = none)
    (hhead : ∀ c, mm.color.head? = some c → isDigit c = false) :
    ∃ title chips, showCharsOverlay (first :: rest) rows chooseRow = .colorList title chips ∧
      ∀ chip ∈ chips, chip = ⟨colorPartToHex mm.color, colorPartToHex mm.color⟩ := by
  simp only [List.length_cons] at hne1 hne2
  have hshape := showCharsOverlay_parsed first rest rows chooseRow mm size hm hp
  rw [if_neg hne1, if_neg hne2] at hshape
  refine ⟨_, _, hshape, ?_⟩
  intro chip hchip
  simp only [List.mem_map] at hchip
  obtain ⟨code, hcode, rfl⟩ := hchip
  obtain ⟨_, _, _, hchip⟩ := sampledCodes_keep_token mm first size rows chooseRow hm hsize hcol
    hr1 hr2 hhead code hcode
  exact hchip

/-! ## Lemmas on double-precision arithmetic -/

theorem divRound_bounds (n d : Nat) (hd : 0 < d) :
    2 * (divRound n d * d) ≤ 2 * n + d ∧ 2 * n ≤ 2 * (divRound n d * d) + d := by
  have hdm := Nat.div_add_mod n d
  have hlt := Nat.mod_lt n hd
  have hmul : n / d * d = d * (n / d) := Nat.mul_comm _ _
  unfold divRound
  simp only []
  split
  · constructor <;> omega
  · split
    · split
      · constructor <;> omega
      · rw [Nat.add_mul]; constructor <;> omega
    · rw [Nat.add_mul]; constructor <;> omega

theorem divRound_zero (d : Nat) (hd : 0 < d) : divRound 0 d = 0 := by
  simp [divRound, hd]

theorem normShift_spec (a d : Nat) : ∀ (fuel s : Nat), 2 ^ 52 * d ≤ a * 2 ^ (s + fuel) →
    2 ^ 52 * d ≤ a * 2 ^ (normShift a d fuel s) := by
  intro fuel
  induction fuel with
  | zero => intro s h; simpa [normShift] using h
  | succ fuel ih =>
    intro s h
    simp only [normShift]
    split
    · assumption
    · apply ih
      have : s + 1 + fuel = s + (fuel + 1) := by omega
      rw [this]; exact h

theorem roundPos_bounds (a d : Nat) (hd : 0 < d) (hub : a < 2 ^ 53 * d)
    (hlb : 2 ^ 52 * d ≤ a * 2 ^ 1074) :
    (a : ℚ) / d * (1 - 1 / 2 ^ 53) ≤ (roundPos a d).val ∧
      (roundPos a d).val ≤ (a : ℚ) / d * (1 + 1 / 2 ^ 53) ∧ 0 ≤ (roundPos a d).num := by
  have hs := normShift_spec a d 1074 0 (by rw [Nat.zero_add]; exact hlb)
  obtain ⟨h1, h2⟩ := divRound_bounds (a * 2 ^ normShift a d 1074 0) d hd
  simp only [roundPos, if_pos hub, F64.val]
  generalize normShift a d 1074 0 = s at hs h1 h2 ⊢
  generalize divRound (a * 2 ^ s) d = q at h1 h2 ⊢
  have hdq : (0 : ℚ) < d := by exact_mod_cast hd
  have hsq : (0 : ℚ) < 2 ^ s := by positivity
  have h1q : 2 * ((q : ℚ) * d) ≤ 2 * (a * 2 ^ s) + d := by exact_mod_cast h1
  have h2q : 2 * ((a : ℚ) * 2 ^ s) ≤ 2 * (q * d) + d := by exact_mod_cast h2
  have hsq2 : (2 : ℚ) ^ 52 * d ≤ a * 2 ^ s := by exact_mod_cast hs
  have hu : (1 : ℚ) / 2 ^ 53 * 2 ^ 52 = 1 / 2 := by norm_num
  refine ⟨?_, ?_, ?_⟩
  · rw [div_mul_eq_mul_div, div_le_div_iff₀ hdq hsq]
    push_cast
    have : (a : ℚ) * (1 - 1 / 2 ^ 53) * 2 ^ s = a * 2 ^ s - (1 / 2 ^ 53) * (a * 2 ^ s) := by ring
    rw [this]
    have h3 : (1 : ℚ) / 2 ^ 53 * (2 ^ 52 * d) ≤ 1 / 2 ^ 53 * (a * 2 ^ s) :=
      mul_le_mul_of_nonneg_left hsq2 (by positivity)
    have h4 : (1 : ℚ) / 2 ^ 53 * (2 ^ 52 * d) = d / 2 := by
      rw [← mul_assoc, hu]; ring
    linarith
  · rw [div_mul_eq_mul_div, div_le_div_iff₀ hsq hdq]
    push_cast
    have : (a : ℚ) * (1 + 1 / 2 ^ 53) * 2 ^ s = a * 2 ^ s + (1 / 2 ^ 53) * (a * 2 ^ s) := by ring
    rw [this]
    have h3 : (1 : ℚ) / 2 ^ 53 * (2 ^ 52 * d) ≤ 1 / 2 ^ 53 * (a * 2 ^ s) :=
      mul_le_mul_of_nonneg_left hsq2 (by positivity)
    have h4 : (1 : ℚ) / 2 ^ 53 * (2 ^ 52 * d) = d / 2 := by
      rw [← mul_assoc, hu]; ring
    linarith
  · exact Int.natCast_nonneg _

theorem roundPos_zero (d : Nat) (hd : 0 < d) : (roundPos 0 d).val = 0 ∧ (roundPos 0 d).num = 0 := by
  have hub : 0 < 2 ^ 53 * d := by positivity
  have h : roundPos 0 d = ⟨divRound 0 d, normShift 0 d 1074 0⟩ := by
    unfold roundPos
    rw [if_pos hub]
    simp only [Nat.zero_mul]
  rw [h, divRound_zero d hd]
  simp [F64.val]

theorem le_mul_pow_of_cast (a d k : Nat) (h : (d : ℚ) ≤ a * 2 ^ k) : d ≤ a * 2 ^ k := by
  exact_mod_cast h

theorem round_bounds (n : Int) (d : Nat) (v : ℚ) (hv : v = (n : ℚ) / d) (hn : 0 ≤ n)
    (hd : 0 < d) (hub : v < 2 ^ 53) (hlb : v = 0 ∨ 1 / 2 ^ 1022 ≤ v) :
    v * (1 - 1 / 2 ^ 53) ≤ (F64.round n d).val ∧
      (F64.round n d).val ≤ v * (1 + 1 / 2 ^ 53) ∧ 0 ≤ (F64.round n d).num := by
  obtain ⟨a, rfl⟩ := Int.eq_ofNat_of_zero_le hn
  have hdq : (0 : ℚ) < d := by exact_mod_cast hd
  have hround : F64.round (a : Int) d = roundPos a d := by
    simp [F64.round]
  rw [hround]
  simp only [Int.cast_natCast] at hv
  by_cases ha : a = 0
  · subst ha
    have hv0 : v = 0 := by simp [hv]
    obtain ⟨h1, h2⟩ := roundPos_zero d hd
    rw [h1, h2, hv0]
    simp
  · have hvpos : v ≠ 0 := by
      rw [hv]
      have : (0 : ℚ) < a := by exact_mod_cast Nat.pos_of_ne_zero ha
      positivity
    have hlb2 : 1 / 2 ^ 1022 ≤ v := hlb.resolve_left hvpos
    have hub2 : a < 2 ^ 53 * d := by
      rw [hv, div_lt_iff₀ hdq] at hub
      exact_mod_cast hub
    have hlb3 : 2 ^ 52 * d ≤ a * 2 ^ 1074 := by
      rw [hv, div_le_div_iff₀ (by positivity) hdq] at hlb2
      have h5 : (d : ℚ) ≤ a * 2 ^ 1022 := by linarith
      have h6 : d ≤ a * 2 ^ 1022 := le_mul_pow_of_cast a d 1022 h5
      calc 2 ^ 52 * d ≤ 2 ^ 52 * (a * 2 ^ 1022) := Nat.mul_le_mul_left _ h6
        _ = a * 2 ^ 1074 := by ring
    rw [hv]
    exact roundPos_bounds a d hd hub2 hlb3

theorem F64.mul_bounds (x y : F64) (hx : 0 ≤ x.num) (hy : 0 ≤ y.num)
    (hub : x.val * y.val < 2 ^ 53) (hlb : x.val * y.val = 0 ∨ 1 / 2 ^ 1022 ≤ x.val * y.val) :
    x.val * y.val * (1 - 1 / 2 ^ 53) ≤ (F64.mul x y).val ∧
      (F64.mul x y).val ≤ x.val * y.val * (1 + 1 / 2 ^ 53) ∧ 0 ≤ (F64.mul x y).num := by
  have hv : x.val * y.val =
      ((x.num * y.num : Int) : ℚ) / ((2 ^ (x.scale + y.scale) : Nat) : ℚ) := by
    simp only [F64.val]
    push_cast
    rw [pow_add, div_mul_div_comm]
  exact round_bounds _ _ _ hv (mul_nonneg hx hy) (by positivity) hub hlb

theorem F64.add_bounds (x y : F64) (hx : 0 ≤ x.num) (hy : 0 ≤ y.num)
    (hub : x.val + y.val < 2 ^ 53) (hlb : x.val + y.val = 0 ∨ 1 / 2 ^ 1022 ≤ x.val + y.val) :
    (x.val + y.val) * (1 - 1 / 2 ^ 53) ≤ (F64.add x y).val ∧
      (F64.add x y).val ≤ (x.val + y.val) * (1 + 1 / 2 ^ 53) ∧ 0 ≤ (F64.add x y).num := by
  have hv : x.val + y.val =
      ((x.num * 2 ^ y.scale + y.num * 2 ^ x.scale : Int) : ℚ) /
        ((2 ^ (x.scale + y.scale) : Nat) : ℚ) := by
    simp only [F64.val]
    push_cast
    rw [pow_add, div_add_div _ _ (by positivity) (by positivity)]
    ring
  exact round_bounds _ _ _ hv
    (add_nonneg (mul_nonneg hx (by positivity)) (mul_nonneg hy (by positivity)))
    (by positivity) hub hlb

theorem F64.div_bounds (x y : F64) (hx : 0 ≤ x.num) (hy : 0 < y.num)
    (hub : x.val / y.val < 2 ^ 53) (hlb : x.val / y.val = 0 ∨ 1 / 2 ^ 1022 ≤ x.val / y.val) :
    x.val / y.val * (1 - 1 / 2 ^ 53) ≤ (F64.div x y).val ∧
      (F64.div x y).val ≤ x.val / y.val * (1 + 1 / 2 ^ 53) ∧ 0 ≤ (F64.div x y).num := by
  obtain ⟨b, hb⟩ := Int.eq_ofNat_of_zero_le (le_of_lt hy)
  have hbpos : 0 < b := by
    rw [hb] at hy
    exact_mod_cast hy
  have hsign : y.num.sign = 1 := Int.sign_eq_one_of_pos hy
  have hd : y.num.natAbs * 2 ^ x.scale = b * 2 ^ x.scale := by rw [hb]; simp
  have hbq : (0 : ℚ) < b := by exact_mod_cast hbpos
  have hv : x.val / y.val =
      ((x.num * 2 ^ y.scale * y.num.sign : Int) : ℚ) /
        ((y.num.natAbs * 2 ^ x.scale : Nat) : ℚ) := by
    rw [hsign, hd]
    simp only [F64.val, hb]
    push_cast
    field_simp
    left; ring
  exact round_bounds _ _ _ hv
    (by rw [hsign]; exact mul_nonneg (mul_nonneg hx (by positivity)) (by decide))
    (by rw [hd]; positivity) hub hlb

theorem F64.lt_iff (x y : F64) : F64.lt x y = true ↔ x.val < y.val := by
  simp only [F64.lt, decide_eq_true_eq, F64.val]
  rw [div_lt_div_iff₀ (by positivity) (by positivity)]
  constructor
  · intro h; exact_mod_cast h
  · intro h; exact_mod_cast h

theorem divRound_one (n : Nat) : divRound n 1 = n := by
  simp [divRound, Nat.mod_one]

theorem F64.ofInt_val (r : Nat) (hr : r < 2 ^ 53) :
    (F64.ofInt (r : Int)).val = r ∧ 0 ≤ (F64.ofInt (r : Int)).num := by
  have hub : r < 2 ^ 53 * 1 := by omega
  have h : F64.ofInt (r : Int) = ⟨(r * 2 ^ normShift r 1 1074 0 : Nat), normShift r 1 1074 0⟩ := by
    simp only [F64.ofInt, F64.round, Int.natAbs_ofNat, roundPos, if_pos hub, divRound_one]
    simp
  rw [h]
  constructor
  · simp only [F64.val]
    push_cast
    field_simp
  · exact Int.natCast_nonneg _

theorem tiny_le (t : ℚ) (ht : 1 / 2 ^ 20 ≤ t) : (1 : ℚ) / 2 ^ 1022 ≤ t := by
  have h : (1 : ℚ) / 2 ^ 1022 ≤ 1 / 2 ^ 20 := by
    apply one_div_le_one_div_of_le (by positivity)
    exact pow_le_pow_right₀ (by norm_num) (by norm_num)
  exact le_trans h ht

theorem km_facts : (0 : ℚ) < 1 - 1 / 2 ^ 53 ∧ (1 : ℚ) - 1 / 2 ^ 53 ≤ 1 ∧
    (1 : ℚ) / 2 ≤ 1 - 1 / 2 ^ 53 ∧ (1 : ℚ) ≤ 1 + 1 / 2 ^ 53 ∧ (1 : ℚ) + 1 / 2 ^ 53 ≤ 2 := by
  norm_num

theorem F64.round_const (n : Int) (hn : 722 ≤ n) (hn2 : n ≤ 10000) :
    (n : ℚ) / 10000 * (1 - 1 / 2 ^ 53) ≤ (F64.round n 10000).val ∧
      (F64.round n 10000).val ≤ (n : ℚ) / 10000 * (1 + 1 / 2 ^ 53) ∧
      0 ≤ (F64.round n 10000).num := by
  have h1 : (722 : ℚ) ≤ n := by exact_mod_cast hn
  have h2 : (n : ℚ) ≤ 10000 := by exact_mod_cast hn2
  refine round_bounds n 10000 ((n : ℚ) / 10000) (by norm_num) (by omega) (by norm_num) ?_ ?_
  · have : (n : ℚ) / 10000 ≤ 1 := by rw [div_le_one (by norm_num)]; exact h2
    have h53 : (1 : ℚ) < 2 ^ 53 := by norm_num
    linarith
  · right
    apply tiny_le
    rw [le_div_iff₀ (by norm_num)]
    have : (1 : ℚ) / 2 ^ 20 * 10000 ≤ 722 := by norm_num
    linarith

theorem channel_bounds (n : Int) (r : Nat) (hn : 722 ≤ n) (hn2 : n ≤ 10000) (hr : r ≤ 255) :
    (n : ℚ) / 10000 * r * (1 - 1 / 2 ^ 53) ^ 2 ≤ (F64.mul (F64.round n 10000) (F64.ofInt r)).val ∧
      (F64.mul (F64.round n 10000) (F64.ofInt r)).val ≤ (n : ℚ) / 10000 * r * (1 + 1 / 2 ^ 53) ^ 2 ∧
      0 ≤ (F64.mul (F64.round n 10000) (F64.ofInt r)).num ∧
      ((F64.mul (F64.round n 10000) (F64.ofInt r)).val = 0 ∨
        1 / 2 ^ 6 ≤ (F64.mul (F64.round n 10000) (F64.ofInt r)).val) := by
  obtain ⟨hc1, hc2, hc3⟩ := F64.round_const n hn hn2
  obtain ⟨hv, hnum⟩ := F64.ofInt_val r (by omega)
  obtain ⟨hk0, hk1, hk2, hk3, hk4⟩ := km_facts
  have h1 : (722 : ℚ) ≤ n := by exact_mod_cast hn
  have h2 : (n : ℚ) ≤ 10000 := by exact_mod_cast hn2
  have hrq : (r : ℚ) ≤ 255 := by exact_mod_cast hr
  have hr0 : (0 : ℚ) ≤ r := by positivity
  have hcpos : (0 : ℚ) ≤ (F64.round n 10000).val := by
    refine le_trans ?_ hc1
    positivity
  have hcle : (F64.round n 10000).val ≤ 2 := by
    refine le_trans hc2 ?_
    have : (n : ℚ) / 10000 ≤ 1 := by rw [div_le_one (by norm_num)]; exact h2
    calc (n : ℚ) / 10000 * (1 + 1 / 2 ^ 53) ≤ 1 * 2 := by
          apply mul_le_mul this hk4 (by linarith) (by norm_num)
      _ = 2 := by norm_num
  have hclo : (1 : ℚ) / 2 ^ 5 ≤ (F64.round n 10000).val := by
    refine le_trans ?_ hc1
    have : (722 : ℚ) / 10000 ≤ (n : ℚ) / 10000 := by
      apply div_le_div_of_nonneg_right h1 (by norm_num)
    calc (1 : ℚ) / 2 ^ 5 ≤ 722 / 10000 * (1 / 2) := by norm_num
      _ ≤ (n : ℚ) / 10000 * (1 - 1 / 2 ^ 53) := by
          apply mul_le_mul this hk2 (by norm_num) (by linarith)
  have hub : (F64.round n 10000).val * (F64.ofInt (r : Int)).val < 2 ^ 53 := by
    rw [hv]
    have : (F64.round n 10000).val * r ≤ 2 * 255 := mul_le_mul hcle hrq hr0 (by norm_num)
    have h53 : (2 : ℚ) * 255 < 2 ^ 53 := by norm_num
    linarith
  have hlb : (F64.round n 10000).val * (F64.ofInt (r : Int)).val = 0 ∨
      1 / 2 ^ 1022 ≤ (F64.round n 10000).val * (F64.ofInt (r : Int)).val := by
    rw [hv]
    rcases Nat.eq_zero_or_pos r with h0 | hpos
    · left; simp [h0]
    · right
      apply tiny_le
      have h1r : (1 : ℚ) ≤ r := by exact_mod_cast hpos
      calc (1 : ℚ) / 2 ^ 20 ≤ 1 / 2 ^ 5 * 1 := by norm_num
        _ ≤ (F64.round n 10000).val * r := mul_le_mul hclo h1r (by norm_num) hcpos
  obtain ⟨hm1, hm2, hm3⟩ := F64.mul_bounds (F64.round n 10000) (F64.ofInt (r : Int)) hc3 hnum hub hlb
  rw [hv] at hm1 hm2
  have hlow : (n : ℚ) / 10000 * r * (1 - 1 / 2 ^ 53) ^ 2 ≤
      (F64.mul (F64.round n 10000) (F64.ofInt r)).val := by
    refine le_trans ?_ hm1
    have : (n : ℚ) / 10000 * r * (1 - 1 / 2 ^ 53) ^ 2 =
        ((n : ℚ) / 10000 * (1 - 1 / 2 ^ 53)) * r * (1 - 1 / 2 ^ 53) := by ring
    rw [this]
    apply mul_le_mul_of_nonneg_right _ (le_of_lt hk0)
    exact mul_le_mul_of_nonneg_right hc1 hr0
  refine ⟨hlow, ?_, hm3, ?_⟩
  · refine le_trans hm2 ?_
    have : (n : ℚ) / 10000 * r * (1 + 1 / 2 ^ 53) ^ 2 =
        ((n : ℚ) / 10000 * (1 + 1 / 2 ^ 53)) * r * (1 + 1 / 2 ^ 53) := by ring
    rw [this]
    apply mul_le_mul_of_nonneg_right _ (by linarith)
    exact mul_le_mul_of_nonneg_right hc2 hr0
  · rcases Nat.eq_zero_or_pos r with h0 | hpos
    · left
      subst h0
      have hz1 : (F64.mul (F64.round n 10000) (F64.ofInt ((0 : Nat) : Int))).val ≤ 0 := by
        simpa using hm2
      have hz2 : 0 ≤ (F64.mul (F64.round n 10000) (F64.ofInt ((0 : Nat) : Int))).val := by
        simpa using hm1
      exact le_antisymm hz1 hz2
    · right
      refine le_trans ?_ hm1
      have h1r : (1 : ℚ) ≤ r := by exact_mod_cast hpos
      calc (1 : ℚ) / 2 ^ 6 = 1 / 2 ^ 5 * 1 * (1 / 2) := by norm_num
        _ ≤ (F64.round n 10000).val * r * (1 - 1 / 2 ^ 53) := by
            apply mul_le_mul _ hk2 (by norm_num) (mul_nonneg hcpos hr0)
            exact mul_le_mul hclo h1r (by norm_num) hcpos

theorem F64.val_nonneg (x : F64) (h : 0 ≤ x.num) : 0 ≤ x.val := by
  have : (0 : ℚ) ≤ x.num := by exact_mod_cast h
  simp only [F64.val]
  positivity

theorem add_chain (x y : F64) (X Y t : ℚ) (k : Nat)
    (hXY : X + Y ≤ 256) (ht : 1 / 2 ^ 19 ≤ t) (hk : (1 + 1 / 2 ^ 53 : ℚ) ^ k ≤ 2)
    (hx1 : X * (1 - 1 / 2 ^ 53) ^ k ≤ x.val) (hx2 : x.val ≤ X * (1 + 1 / 2 ^ 53) ^ k)
    (hxn : 0 ≤ x.num) (hxz : x.val = 0 ∨ t ≤ x.val)
    (hy1 : Y * (1 - 1 / 2 ^ 53) ^ k ≤ y.val) (hy2 : y.val ≤ Y * (1 + 1 / 2 ^ 53) ^ k)
    (hyn : 0 ≤ y.num) (hyz : y.val = 0 ∨ t ≤ y.val) :
    (X + Y) * (1 - 1 / 2 ^ 53) ^ (k + 1) ≤ (F64.add x y).val ∧
      (F64.add x y).val ≤ (X + Y) * (1 + 1 / 2 ^ 53) ^ (k + 1) ∧
      0 ≤ (F64.add x y).num ∧ ((F64.add x y).val = 0 ∨ t / 2 ≤ (F64.add x y).val) := by
  obtain ⟨hk0, hk1, hk2, hk3, hk4⟩ := km_facts
  have hxv := F64.val_nonneg x hxn
  have hyv := F64.val_nonneg y hyn
  have hsum2 : x.val + y.val ≤ (X + Y) * (1 + 1 / 2 ^ 53) ^ k := by linarith
  have hsum1 : (X + Y) * (1 - 1 / 2 ^ 53) ^ k ≤ x.val + y.val := by linarith
  have hub : x.val + y.val < 2 ^ 53 := by
    have h1 : (X + Y) * (1 + 1 / 2 ^ 53) ^ k ≤ 256 * 2 :=
      mul_le_mul hXY hk (by positivity) (by norm_num)
    have h53 : (256 : ℚ) * 2 < 2 ^ 53 := by norm_num
    linarith
  have hz : x.val + y.val = 0 ∨ t ≤ x.val + y.val := by
    rcases hxz with h | h
    · rcases hyz with h' | h'
      · left; rw [h, h']; norm_num
      · right; linarith
    · right; linarith
  have hlb : x.val + y.val = 0 ∨ 1 / 2 ^ 1022 ≤ x.val + y.val := by
    rcases hz with h | h
    · exact Or.inl h
    · right
      apply tiny_le
      have : (1 : ℚ) / 2 ^ 20 ≤ 1 / 2 ^ 19 := by norm_num
      linarith
  obtain ⟨ha1, ha2, ha3⟩ := F64.add_bounds x y hxn hyn hub hlb
  refine ⟨?_, ?_, ha3, ?_⟩
  · refine le_trans ?_ ha1
    rw [pow_succ (1 - 1 / 2 ^ 53 : ℚ) k, ← mul_assoc]
    exact mul_le_mul_of_nonneg_right hsum1 (le_of_lt hk0)
  · refine le_trans ha2 ?_
    rw [pow_succ (1 + 1 / 2 ^ 53 : ℚ) k, ← mul_assoc]
    exact mul_le_mul_of_nonneg_right hsum2 (by linarith)
  · rcases hz with h | h
    · left
      rw [h] at ha1 ha2
      have h1 : (F64.add x y).val ≤ 0 := by simpa using ha2
      have h2 : 0 ≤ (F64.add x y).val := by simpa using ha1
      exact le_antisymm h1 h2
    · right
      refine le_trans ?_ ha1
      have ht0 : 0 ≤ t := le_trans (by norm_num) ht
      calc t / 2 = t * (1 / 2) := by ring
        _ ≤ (x.val + y.val) * (1 - 1 / 2 ^ 53) :=
            mul_le_mul h hk2 (by norm_num) (by linarith)

theorem F64.ofInt_255 : (F64.ofInt 255).val = 255 ∧ 0 < (F64.ofInt 255).num := by
  have h := F64.ofInt_val 255 (by norm_num)
  simp only [Nat.cast_ofNat] at h
  refine ⟨h.1, ?_⟩
  rcases lt_or_eq_of_le h.2 with hlt | heq
  · exact hlt
  · exfalso
    have hv := h.1
    simp only [F64.val, ← heq] at hv
    norm_num at hv

theorem div_chain (x : F64) (X t : ℚ) (k : Nat) (hX2 : X ≤ 256)
    (ht : 1 / 2 ^ 10 ≤ t) (hk : (1 + 1 / 2 ^ 53 : ℚ) ^ k ≤ 2)
    (hx1 : X * (1 - 1 / 2 ^ 53) ^ k ≤ x.val) (hx2 : x.val ≤ X * (1 + 1 / 2 ^ 53) ^ k)
    (hxn : 0 ≤ x.num) (hxz : x.val = 0 ∨ t ≤ x.val) :
    X / 255 * (1 - 1 / 2 ^ 53) ^ (k + 1) ≤ (F64.div x (F64.ofInt 255)).val ∧
      (F64.div x (F64.ofInt 255)).val ≤ X / 255 * (1 + 1 / 2 ^ 53) ^ (k + 1) := by
  obtain ⟨hk0, hk1, hk2, hk3, hk4⟩ := km_facts
  obtain ⟨h255, hpos⟩ := F64.ofInt_255
  have hxv := F64.val_nonneg x hxn
  have hub : x.val / (F64.ofInt 255).val < 2 ^ 53 := by
    rw [h255, div_lt_iff₀ (by norm_num)]
    have h1 : X * (1 + 1 / 2 ^ 53) ^ k ≤ 256 * 2 :=
      mul_le_mul hX2 hk (by positivity) (by norm_num)
    have h53 : (256 : ℚ) * 2 < 2 ^ 53 * 255 := by norm_num
    linarith
  have hlb : x.val / (F64.ofInt 255).val = 0 ∨ 1 / 2 ^ 1022 ≤ x.val / (F64.ofInt 255).val := by
    rw [h255]
    rcases hxz with h | h
    · left; rw [h]; norm_num
    · right
      apply tiny_le
      rw [le_div_iff₀ (by norm_num)]
      have : (1 : ℚ) / 2 ^ 20 * 255 ≤ 1 / 2 ^ 10 := by norm_num
      linarith
  obtain ⟨hd1, hd2, _⟩ := F64.div_bounds x (F64.ofInt 255) hxn hpos hub hlb
  rw [h255] at hd1 hd2
  constructor
  · refine le_trans ?_ hd1
    rw [pow_succ (1 - 1 / 2 ^ 53 : ℚ) k, ← mul_assoc]
    apply mul_le_mul_of_nonneg_right _ (le_of_lt hk0)
    rw [div_mul_eq_mul_div]
    exact div_le_div_of_nonneg_right hx1 (by norm_num)
  · refine le_trans hd2 ?_
    rw [pow_succ (1 + 1 / 2 ^ 53 : ℚ) k, ← mul_assoc]
    apply mul_le_mul_of_nonneg_right _ (by linarith)
    rw [div_mul_eq_mul_div]
    exact div_le_div_of_nonneg_right hx2 (by norm_num)

theorem luminance_bounds (r g b : Nat) (hr : r ≤ 255) (hg : g ≤ 255) (hb : b ≤ 255) :
    (2126 * r + 7152 * g + 722 * b : ℚ) / 2550000 * (1 - 1 / 2 ^ 53) ^ 5 ≤
        (luminance r g b).val ∧
      (luminance r g b).val ≤
        (2126 * r + 7152 * g + 722 * b : ℚ) / 2550000 * (1 + 1 / 2 ^ 53) ^ 5 := by
  obtain ⟨hk0, hk1, hk2, hk3, hk4⟩ := km_facts
  have hrq : (r : ℚ) ≤ 255 := by exact_mod_cast hr
  have hgq : (g : ℚ) ≤ 255 := by exact_mod_cast hg
  have hbq : (b : ℚ) ≤ 255 := by exact_mod_cast hb
  have hr0 : (0 : ℚ) ≤ r := by positivity
  have hg0 : (0 : ℚ) ≤ g := by positivity
  have hb0 : (0 : ℚ) ≤ b := by positivity
  obtain ⟨p1l, p1u, p1n, p1z⟩ := channel_bounds 2126 r (by norm_num) (by norm_num) hr
  obtain ⟨p2l, p2u, p2n, p2z⟩ := channel_bounds 7152 g (by norm_num) (by norm_num) hg
  obtain ⟨p3l, p3u, p3n, p3z⟩ := channel_bounds 722 b (by norm_num) (by norm_num) hb
  simp only [Int.cast_ofNat] at p1l p1u p2l p2u p3l p3u
  have hpow2 : (1 + 1 / 2 ^ 53 : ℚ) ^ 2 ≤ 2 := by norm_num
  have hpow3 : (1 + 1 / 2 ^ 53 : ℚ) ^ 3 ≤ 2 := by norm_num
  have hpow4 : (1 + 1 / 2 ^ 53 : ℚ) ^ 4 ≤ 2 := by norm_num
  obtain ⟨s1l, s1u, s1n, s1z⟩ := add_chain _ _ ((2126 : ℚ) / 10000 * r) ((7152 : ℚ) / 10000 * g)
    (1 / 2 ^ 6) 2 (by linarith) (by norm_num) hpow2 p1l p1u p1n p1z p2l p2u p2n p2z
  have hX3 : (0 : ℚ) ≤ 722 / 10000 * b := by positivity
  have p3l' : (722 : ℚ) / 10000 * b * (1 - 1 / 2 ^ 53) ^ 3 ≤
      (F64.mul (F64.round 722 10000) (F64.ofInt b)).val := by
    refine le_trans ?_ p3l
    rw [pow_succ (1 - 1 / 2 ^ 53 : ℚ) 2, ← mul_assoc]
    exact mul_le_of_le_one_right (mul_nonneg hX3 (by positivity)) hk1
  have p3u' : (F64.mul (F64.round 722 10000) (F64.ofInt b)).val ≤
      (722 : ℚ) / 10000 * b * (1 + 1 / 2 ^ 53) ^ 3 := by
    refine le_trans p3u ?_
    rw [pow_succ (1 + 1 / 2 ^ 53 : ℚ) 2, ← mul_assoc]
    exact le_mul_of_one_le_right (mul_nonneg hX3 (by positivity)) hk3
  have p3z' : (F64.mul (F64.round 722 10000) (F64.ofInt b)).val = 0 ∨
      (1 : ℚ) / 2 ^ 6 / 2 ≤ (F64.mul (F64.round 722 10000) (F64.ofInt b)).val := by
    rcases p3z with h | h
    · exact Or.inl h
    · right
      have : (1 : ℚ) / 2 ^ 6 / 2 ≤ 1 / 2 ^ 6 := by norm_num
      linarith
  obtain ⟨s2l, s2u, s2n, s2z⟩ := add_chain _ _
    ((2126 : ℚ) / 10000 * r + (7152 : ℚ) / 10000 * g) ((722 : ℚ) / 10000 * b)
    (1 / 2 ^ 6 / 2) 3 (by linarith) (by norm_num) hpow3 s1l s1u s1n s1z p3l' p3u' p3n p3z'
  obtain ⟨ll, lu⟩ := div_chain _
    ((2126 : ℚ) / 10000 * r + (7152 : ℚ) / 10000 * g + (722 : ℚ) / 10000 * b)
    (1 / 2 ^ 6 / 2 / 2) 4 (by linarith) (by norm_num) hpow4 s2l s2u s2n s2z
  have hE : ((2126 : ℚ) / 10000 * r + (7152 : ℚ) / 10000 * g + (722 : ℚ) / 10000 * b) / 255 =
      (2126 * r + 7152 * g + 722 * b : ℚ) / 2550000 := by ring
  rw [hE] at ll lu
  exact ⟨ll, lu⟩

theorem threshold_bounds :
    (6 : ℚ) / 10 * (1 - 1 / 2 ^ 53) ≤ (F64.round 6 10).val ∧
      (F64.round 6 10).val ≤ (6 : ℚ) / 10 * (1 + 1 / 2 ^ 53) := by
  have h := round_bounds 6 10 ((6 : ℚ) / 10) (by norm_num) (by norm_num) (by norm_num)
    (by norm_num) (Or.inr (tiny_le _ (by norm_num)))
  exact ⟨h.1, h.2.1⟩

theorem luminance_above (r g b : Nat) (hr : r ≤ 255) (hg : g ≤ 255) (hb : b ≤ 255)
    (h : 1530002 ≤ 2126 * r + 7152 * g + 722 * b) :
    F64.lt (F64.round 6 10) (luminance r g b) = true := by
  rw [F64.lt_iff]
  obtain ⟨ll, _⟩ := luminance_bounds r g b hr hg hb
  obtain ⟨_, tu⟩ := threshold_bounds
  have hq : (1530002 : ℚ) ≤ 2126 * r + 7152 * g + 722 * b := by exact_mod_cast h
  have h1 : (1530002 : ℚ) / 2550000 * (1 - 1 / 2 ^ 53) ^ 5 ≤
      (2126 * r + 7152 * g + 722 * b : ℚ) / 2550000 * (1 - 1 / 2 ^ 53) ^ 5 := by
    apply mul_le_mul_of_nonneg_right _ (by norm_num)
    exact div_le_div_of_nonneg_right hq (by norm_num)
  have h2 : (6 : ℚ) / 10 * (1 + 1 / 2 ^ 53) < 1530002 / 2550000 * (1 - 1 / 2 ^ 53) ^ 5 := by
    norm_num
  linarith

theorem luminance_below (r g b : Nat) (hr : r ≤ 255) (hg : g ≤ 255) (hb : b ≤ 255)
    (h : 2126 * r + 7152 * g + 722 * b ≤ 1529998) :
    F64.lt (F64.round 6 10) (luminance r g b) = false := by
  rw [Bool.eq_false_iff, Ne, F64.lt_iff, not_lt]
  obtain ⟨_, lu⟩ := luminance_bounds r g b hr hg hb
  obtain ⟨tl, _⟩ := threshold_bounds
  have hq : (2126 * r + 7152 * g + 722 * b : ℚ) ≤ 1529998 := by exact_mod_cast h
  have h1 : (2126 * r + 7152 * g + 722 * b : ℚ) / 2550000 * (1 + 1 / 2 ^ 53) ^ 5 ≤
      (1529998 : ℚ) / 2550000 * (1 + 1 / 2 ^ 53) ^ 5 := by
    apply mul_le_mul_of_nonneg_right _ (by norm_num)
    exact div_le_div_of_nonneg_right hq (by norm_num)
  have h2 : (1529998 : ℚ) / 2550000 * (1 + 1 / 2 ^ 53) ^ 5 < 6 / 10 * (1 - 1 / 2 ^ 53) := by
    norm_num
  linarith

theorem luminance_ties :
    ∀ g, g < 256 → tieRed g < 256 → tieBlue g < 256 →
      2126 * tieRed g + 7152 * g + 722 * tieBlue g = 1530000 →
      blackText (tieRed g) g (tieBlue g) = false := by
  decide!

theorem luminance_tie (r g b : Nat) (hr : r ≤ 255) (hg : g ≤ 255) (hb : b ≤ 255)
    (h : 2126 * r + 7152 * g + 722 * b = 1530000) :
    F64.lt (F64.round 6 10) (luminance r g b) = false := by
  have hr0 : tieRed g = r := by unfold tieRed; omega
  have hb0 : tieBlue g = b := by unfold tieBlue; rw [hr0]; omega
  have ht := luminance_ties g (by omega)
  rw [hr0, hb0] at ht
  exact ht (by omega) (by omega) h

theorem luminance_gt (r g b : Nat) (hr : r ≤ 255) (hg : g ≤ 255) (hb : b ≤ 255) :
    F64.lt (F64.round 6 10) (luminance r g b) =
      decide (1530000 < 2126 * r + 7152 * g + 722 * b) := by
  rcases Nat.lt_trichotomy (2126 * r + 7152 * g + 722 * b) 1530000 with h | h | h
  · rw [luminance_below r g b hr hg hb (by omega)]
    symm
    rw [decide_eq_false_iff_not]
    omega
  · rw [luminance_tie r g b hr hg hb h]
    symm
    rw [decide_eq_false_iff_not]
    omega
  · rw [luminance_above r g b hr hg hb (by omega)]
    symm
    rw [decide_eq_true_eq]
    exact h

theorem digitValue_hex (c v : Nat) (h : digitValue 16 c = some v) :
    v ≤ 15 ∧ isWhiteSpace c = false ∧ c ≠ 45 ∧ c ≠ 43 ∧ c ≠ 120 ∧ c ≠ 88 := by
  unfold digitValue at h
  split at h
  · rename_i hd
    simp only [isDigit, Bool.and_eq_true, decide_eq_true_eq] at hd
    simp only [Option.some.injEq] at h
    refine ⟨by omega, ?_, by omega, by omega, by omega, by omega⟩
    simp [isWhiteSpace]; omega
  · split at h
    · rename_i _ hd
      simp only [Bool.and_eq_true, decide_eq_true_eq] at hd
      simp only [Option.some.injEq] at h
      refine ⟨by omega, ?_, by omega, by omega, by omega, by omega⟩
      simp [isWhiteSpace]; omega
    · split at h
      · rename_i _ _ hd
        simp only [Bool.and_eq_true, decide_eq_true_eq] at hd
        simp only [Option.some.injEq] at h
        refine ⟨by omega, ?_, by omega, by omega, by omega, by omega⟩
        simp [isWhiteSpace]; omega
      · exact absurd h (by simp)

theorem parseInt_hex_pair (a b va vb : Nat) (ha : digitValue 16 a = some va)
    (hb : digitValue 16 b = some vb) :
    parseInt [a, b] 16 = some ((16 * va + vb : Nat) : Int) := by
  obtain ⟨_, hws, h45, h43, _, _⟩ := digitValue_hex a va ha
  obtain ⟨_, _, _, _, h120, h88⟩ := digitValue_hex b vb hb
  simp [parseInt, List.dropWhile_cons, hws, h45, h43, h120, h88, readDigits, ha, hb]
  ring

/-! ## Contrast color -/

/-- C8: for a color string `#RRGGBB` of six hexadecimal digits, with `r`, `g`,
`b` the values of the three digit pairs, `contrastColor` returns `#000` exactly
when `2126 r + 7152 g + 722 b > 1530000` and `#fff` otherwise: the comparison
`lum > 0.6` computed in double precision agrees with exact arithmetic for all
channels from 0 to 255. -/
theorem contrastColor_luminance (d1 d2 d3 d4 d5 d6 v1 v2 v3 v4 v5 v6 : Nat)
    (h1 : digitValue 16 d1 = some v1) (h2 : digitValue 16 d2 = some v2)
    (h3 : digitValue 16 d3 = some v3) (h4 : digitValue 16 d4 = some v4)
    (h5 : digitValue 16 d5 = some v5) (h6 : digitValue 16 d6 = some v6) :
    16 * v1 + v2 ≤ 255 ∧ 16 * v3 + v4 ≤ 255 ∧ 16 * v5 + v6 ≤ 255 ∧
    contrastColor (.str [35, d1, d2, d3, d4, d5, d6]) =
      if 1530000 < 2126 * (16 * v1 + v2) + 7152 * (16 * v3 + v4) + 722 * (16 * v5 + v6)
      then lit "#000" else lit "#fff" := by
  have b1 := (digitValue_hex d1 v1 h1).1
  have b2 := (digitValue_hex d2 v2 h2).1
  have b3 := (digitValue_hex d3 v3 h3).1
  have b4 := (digitValue_hex d4 v4 h4).1
  have b5 := (digitValue_hex d5 v5 h5).1
  have b6 := (digitValue_hex d6 v6 h6).1
  refine ⟨by omega, by omega, by omega, ?_⟩
  have hr := parseInt_hex_pair d1 d2 v1 v2 h1 h2
  have hg := parseInt_hex_pair d3 d4 v3 v4 h3 h4
  have hb := parseInt_hex_pair d5 d6 v5 v6 h5 h6
  have hgt := luminance_gt (16 * v1 + v2) (16 * v3 + v4) (16 * v5 + v6) (by omega) (by omega)
    (by omega)
  have hs1 : slice [d1, d2, d3, d4, d5, d6] 0 2 = [d1, d2] := rfl
  have hs2 : slice [d1, d2, d3, d4, d5, d6] 2 4 = [d3, d4] := rfl
  have hs3 : slice [d1, d2, d3, d4, d5, d6] 4 6 = [d5, d6] := rfl
  have herase : ([35, d1, d2, d3, d4, d5, d6] : List Nat).erase 35 = [d1, d2, d3, d4, d5, d6] :=
    List.erase_cons_head _ _
  have htruthy : truthy (.str [35, d1, d2, d3, d4, d5, d6]) = true := rfl
  simp only [contrastColor, htruthy, toStringJS, herase, hs1, hs2, hs3, hr, hg, hb, hgt,
    Bool.not_true, Bool.false_eq_true, if_false, decide_eq_true_eq]

/-- Witness of C8: `#FFFFFF` gives `#000`; `#000000`, `#FF0000` and `#0000FF`
give `#fff`. -/
theorem contrastColor_luminance_witness :
    contrastColor (.str (lit "#FFFFFF")) = lit "#000" ∧
    contrastColor (.str (lit "#000000")) = lit "#fff" ∧
    contrastColor (.str (lit "#FF0000")) = lit "#fff" ∧
    contrastColor (.str (lit "#0000FF")) = lit "#fff" :=
  ⟨(contrastColor_luminance 70 70 70 70 70 70 15 15 15 15 15 15 (by decide) (by decide)
      (by decide) (by decide) (by decide) (by decide)).2.2.2,
    (contrastColor_luminance 48 48 48 48 48 48 0 0 0 0 0 0 (by decide) (by decide)
      (by decide) (by decide) (by decide) (by decide)).2.2.2,
    (contrastColor_luminance 70 70 48 48 48 48 15 15 0 0 0 0 (by decide) (by decide)
      (by decide) (by decide) (by decide) (by decide)).2.2.2,
    (contrastColor_luminance 48 48 48 48 70 70 0 0 0 0 15 15 (by decide) (by decide)
      (by decide) (by decide) (by decide) (by decide)).2.2.2⟩

/-! ## Color resolution -/

/-- C1: `colorPartToHex` does not return a `#RRGGBB` string for every input.
The token `constructor` (in any letter case) is not an own key of
`BASIC_COLOR_MAP`, yet the property read `BASIC_COLOR_MAP['constructor']` finds
the function `Object` on the prototype chain, which is truthy and is returned;
the code `4A1_constructor` matches the grammar and brings that token to
`colorPartToHex`. For every input whose trimmed and `#`-stripped lower case is
neither `constructor` nor `__proto__`, the result is a `#RRGGBB` string. -/
theorem colorPartToHex_constructor :
    colorPartToHex (lit "constructor") = .nativeFunction (lit "Object") ∧
    colorPartToHex (lit "Constructor") = .nativeFunction (lit "Object") ∧
    (∀ s : JSString, colorPartToHex (lit "constructor") ≠ .str s) ∧
    execGrammar (lit "4A1_constructor") = some ⟨lit "4", lit "A", lit "1", lit "constructor"⟩ ∧
    cellHex (lit "4A1_constructor") = .nativeFunction (lit "Object") ∧
    (∀ part : JSString,
      toLowerCase (if (trim part).head? = some 35 then (trim part).drop 1 else trim part) ≠
        lit "constructor" →
      toLowerCase (if (trim part).head? = some 35 then (trim part).drop 1 else trim part) ≠
        lit "__proto__" →
      ∃ s, colorPartToHex part = .str s ∧ isHexColor s = true) := by
  refine ⟨by decide, by decide, ?_, by decide, by decide, colorPartToHex_form⟩
  intro s hs
  have h : colorPartToHex (lit "constructor") = .nativeFunction (lit "Object") := by decide
  rw [h] at hs
  exact JSVal.noConfusion hs

/-- C2: for a string `h` of hexadecimal digits, `colorPartToHex h` and
`colorPartToHex ('#' + h)` are both `'#'` followed by `h` upper-cased when `h`
has 6 digits, and `'#'` followed by the first 6 digits of `h` upper-cased when
`h` has 8 digits. -/
theorem colorPartToHex_hex (h : JSString) (hh : ∀ c ∈ h, isHexDigit c = true) :
    (h.length = 6 →
      colorPartToHex h = .str (35 :: toUpperCase h) ∧
      colorPartToHex (35 :: h) = .str (35 :: toUpperCase h)) ∧
    (h.length = 8 →
      colorPartToHex h = .str (35 :: toUpperCase (h.take 6)) ∧
      colorPartToHex (35 :: h) = .str (35 :: toUpperCase (h.take 6))) :=
  ⟨fun hlen => colorPartToHex_six h hlen hh, fun hlen => colorPartToHex_eight h hlen hh⟩

/-- Witness of C2: `1a2b3c`, `#1a2b3c`, `1a2b3c4d` and `#1a2b3c4d` all give
`#1A2B3C`. -/
theorem colorPartToHex_hex_witness :
    (colorPartToHex (lit "1a2b3c") = .str (lit "#1A2B3C") ∧
      colorPartToHex (lit "#1a2b3c") = .str (lit "#1A2B3C")) ∧
    (colorPartToHex (lit "1a2b3c4d") = .str (lit "#1A2B3C") ∧
      colorPartToHex (lit "#1a2b3c4d") = .str (lit "#1A2B3C")) :=
  ⟨(colorPartToHex_hex (lit "1a2b3c") (by decide)).1 (by decide),
    (colorPartToHex_hex (lit "1a2b3c4d") (by decide)).2 (by decide)⟩

/-- C3 as stated fails: the token `" red"` is not empty, is neither 6 nor 8
hexadecimal digits after stripping a leading `#`, and its lower case is not a
key of the table, but `colorPartToHex` trims it and returns `#FF0000`, not the
fallback. -/
theorem colorPartToHex_names_counterexample :
    ¬ ∀ token : JSString, token ≠ [] →
      testHex 6 (if token.head? = some 35 then token.drop 1 else token) = false →
      testHex 8 (if token.head? = some 35 then token.drop 1 else token) = false →
      (∀ v, BASIC_COLOR_MAP.lookup
          (toLowerCase (if token.head? = some 35 then token.drop 1 else token)) = some v →
        colorPartToHex token = .str v) ∧
      (BASIC_COLOR_MAP.lookup
          (toLowerCase (if token.head? = some 35 then token.drop 1 else token)) = none →
        colorPartToHex token = .str (lit "#FF00FF")) := by
  intro h
  have h1 := (h (lit " red") (by decide) (by decide) (by decide)).2 (by decide)
  exact absurd h1 (by decide)

/-- C3 amended: for a non-empty token, let `p` be the token trimmed and then
stripped of one leading `#`. When `p` is neither 6 nor 8 hexadecimal digits,
`colorPartToHex` returns the table's value when the lower case of `p` is one of
the 12 keys of `BASIC_COLOR_MAP`, and the fallback `#FF00FF` when the lower case
of `p` is no key of the table and is neither `constructor` nor `__proto__`. -/
theorem colorPartToHex_names (token : JSString) (hne : token ≠ [])
    (h6 : testHex 6 (if (trim token).head? = some 35 then (trim token).drop 1
      else trim token) = false)
    (h8 : testHex 8 (if (trim token).head? = some 35 then (trim token).drop 1
      else trim token) = false) :
    (∀ v, BASIC_COLOR_MAP.lookup (toLowerCase (if (trim token).head? = some 35 then
          (trim token).drop 1 else trim token)) = some v →
        colorPartToHex token = .str v) ∧
    (BASIC_COLOR_MAP.lookup (toLowerCase (if (trim token).head? = some 35 then
          (trim token).drop 1 else trim token)) = none →
      toLowerCase (if (trim token).head? = some 35 then (trim token).drop 1
        else trim token) ≠ lit "constructor" →
      toLowerCase (if (trim token).head? = some 35 then (trim token).drop 1
        else trim token) ≠ lit "__proto__" →
      colorPartToHex token = .str (lit "#FF00FF")) ∧
    BASIC_COLOR_MAP.map Prod.fst =
      [lit "black", lit "white", lit "red", lit "green", lit "blue", lit "yellow",
        lit "magenta", lit "cyan", lit "gray", lit "pink", lit "purple", lit "orange"] := by
  have hemp : token.isEmpty = false := by cases token <;> simp_all
  refine ⟨?_, ?_, by decide⟩
  · intro v hv
    have ht := lookup_truthy _ v hv
    simp only [colorPartToHex, hemp, h6, h8, getProperty, hv, ht]
    simp
  · intro hnone hc hp
    have hm := no_upper_not_method _ (toLowerCase_no_upper
      (if (trim token).head? = some 35 then (trim token).drop 1 else trim token))
    simp only [colorPartToHex, hemp, h6, h8, getProperty, hnone, objectPrototypeGet, hc, hp, hm]
    simp

/-- Witness of C3 amended: `red`, `RED` and `Red` resolve through the table to
`#FF0000`, and `notacolor` gives the fallback `#FF00FF`. -/
theorem colorPartToHex_names_witness :
    colorPartToHex (lit "red") = .str (lit "#FF0000") ∧
    colorPartToHex (lit "RED") = .str (lit "#FF0000") ∧
    colorPartToHex (lit "Red") = .str (lit "#FF0000") ∧
    colorPartToHex (lit "notacolor") = .str (lit "#FF00FF") :=
  ⟨(colorPartToHex_names (lit "red") (by decide) (by decide) (by decide)).1 (lit "#FF0000")
      (by decide),
    (colorPartToHex_names (lit "RED") (by decide) (by decide) (by decide)).1 (lit "#FF0000")
      (by decide),
    (colorPartToHex_names (lit "Red") (by decide) (by decide) (by decide)).1 (lit "#FF0000")
      (by decide),
    (colorPartToHex_names (lit "notacolor") (by decide) (by decide) (by decide)).2.1
      (by decide) (by decide) (by decide)⟩

/-! ## Code generation and the grammar -/

/-- C4: for every input `x`, with `s` the trimmed input, `generatePixelCode x`
is the string `{size}{row}{column}_{color}` where `size` follows the length
steps 2, 4, 8, 12, 20 of `s`, `row` is the first letter of `s` upper-cased or
`M` when `s` has no letter, `column` is `sum mod max(1, size) + 1` and `color`
is the entry `sum mod 9` of the nine color names, `sum` being the sum of the
code units of `s`; the empty input gives `8M1_Red`. -/
theorem generatePixelCode_spec (x : JSString) :
    (∃ (size column row : Nat) (color : JSString),
      generatePixelCode x = natToString size ++ [row] ++ natToString column ++ lit "_" ++ color ∧
      ((trim x).length ≤ 2 → size = 8) ∧
      (2 < (trim x).length → (trim x).length ≤ 4 → size = 16) ∧
      (4 < (trim x).length → (trim x).length ≤ 8 → size = 24) ∧
      (8 < (trim x).length → (trim x).length ≤ 12 → size = 32) ∧
      (12 < (trim x).length → (trim x).length ≤ 20 → size = 48) ∧
      (20 < (trim x).length → size = 64) ∧
      ((∀ c ∈ trim x, isLetter c = false) → row = 77) ∧
      (∀ (pre post : JSString) (c : Nat), trim x = pre ++ c :: post →
        (∀ d ∈ pre, isLetter d = false) → isLetter c = true →
        row = if isLower c then c - 32 else c) ∧
      column = (trim x).sum % max 1 size + 1 ∧
      [lit "Red", lit "Green", lit "Blue", lit "Purple", lit "Cyan", lit "Yellow", lit "Pink",
        lit "Orange", lit "Magenta"].get? ((trim x).sum % 9) = some color) ∧
    (∀ y, y = x → generatePixelCode y = generatePixelCode x) ∧
    generatePixelCode (lit "") = lit "8M1_Red" := by
  refine ⟨?_, fun y hy => by rw [hy], by decide⟩
  obtain ⟨size, col, row, hgen, hsize, hcol, hrow⟩ := generatePixelCode_shape x
  refine ⟨size, col, row, colors.getD ((trim x).sum % 9) [], hgen, ?_, ?_, ?_, ?_, ?_, ?_, ?_, ?_,
    hcol, ?_⟩
  · intro h; rw [hsize]; simp [h]
  · intro h1 h2; rw [hsize]; rw [if_neg (by omega), if_pos h2]
  · intro h1 h2; rw [hsize]; rw [if_neg (by omega), if_neg (by omega), if_pos h2]
  · intro h1 h2; rw [hsize]; rw [if_neg (by omega), if_neg (by omega), if_neg (by omega), if_pos h2]
  · intro h1 h2; rw [hsize]
    rw [if_neg (by omega), if_neg (by omega), if_neg (by omega), if_neg (by omega), if_pos h2]
  · intro h1; rw [hsize]
    rw [if_neg (by omega), if_neg (by omega), if_neg (by omega), if_neg (by omega),
      if_neg (by omega)]
  · intro hnone
    have : (trim x).find? isLetter = none := by
      rw [List.find?_eq_none]
      intro c hc
      simp [hnone c hc]
    rw [this] at hrow
    simpa using hrow
  · intro pre post c hs hpre hc
    have : (trim x).find? isLetter = some c := by
      rw [hs]; exact find?_first isLetter c post hc pre hpre
    rw [this] at hrow
    simpa [upperUnit] using hrow
  · have h9 : (trim x).sum % 9 < 9 := Nat.mod_lt _ (by decide)
    have hc : colors = [lit "Red", lit "Green", lit "Blue", lit "Purple", lit "Cyan", lit "Yellow",
        lit "Pink", lit "Orange", lit "Magenta"] := rfl
    rw [← hc]
    generalize (trim x).sum % 9 = k at h9
    interval_cases k <;> rfl

/-- C5: for a size above zero, an upper-case row letter, a column and a
non-empty color token over `[A-Za-z0-9#]`, the grammar matches the canonical
string `{size}{row}{column}_{colorToken}`, and its four groups are the decimal
notation of the size (read back by `parseInt` as the size), the row letter, the
decimal notation of the column (read back as the column) and the color token. -/
theorem grammar_round_trip (size column row : Nat) (colorToken : JSString)
    (_hsize : 0 < size) (hrow : isUpper row = true) (hne : colorToken ≠ [])
    (htok : ∀ c ∈ colorToken, isTokenChar c = true) :
    ∃ m : Groups, execGrammar (formatCode size [row] column colorToken) = some m ∧
      parseInt m.size 10 = some (size : Int) ∧ m.row = [row] ∧
      parseInt m.column 10 = some (column : Int) ∧ m.color = colorToken :=
  ⟨_, formatCode_parses size column row colorToken (isUpper_letter row hrow) hne htok,
    parseInt_natToString size, rfl, parseInt_natToString column, rfl⟩

/-- Witness of C5 at size 32, row `H`, column 11 and the token `Red`. -/
theorem grammar_round_trip_witness :
    ∃ m : Groups, execGrammar (formatCode 32 [72] 11 (lit "Red")) = some m ∧
      parseInt m.size 10 = some (32 : Int) ∧ m.row = [72] ∧
      parseInt m.column 10 = some (11 : Int) ∧ m.color = lit "Red" :=
  grammar_round_trip 32 11 72 (lit "Red") (by decide) (by decide) (by decide) (by decide)

/-- C10: for every input, the generated code matches the grammar; its size
group reads as one of 8, 16, 24, 32, 48, 64; its row group is one letter of
`A`-`Z`; its column group reads as a number from 1 to the size; and its color
token, lower-cased, is an own key of `BASIC_COLOR_MAP` whose value is what
`colorPartToHex` returns for the token. -/
theorem generatePixelCode_wellformed (x : JSString) :
    ∃ (m : Groups) (size col : Nat), execGrammar (generatePixelCode x) = some m ∧
      parseInt m.size 10 = some (size : Int) ∧ size ∈ [8, 16, 24, 32, 48, 64] ∧
      (∃ r, m.row = [r] ∧ isUpper r = true) ∧
      parseInt m.column 10 = some (col : Int) ∧ 1 ≤ col ∧ col ≤ size ∧
      ∃ v, BASIC_COLOR_MAP.lookup (toLowerCase m.color) = some v ∧
        colorPartToHex m.color = .str v := by
  obtain ⟨size, col, row, hgen, hsize, hcol, hrow⟩ := generatePixelCode_shape x
  have h9 : (trim x).sum % 9 < 9 := Nat.mod_lt _ (by decide)
  obtain ⟨hne, htok, v, hv1, hv2⟩ := colors_resolve _ h9
  have hup : isUpper row = true := by
    cases hf : (trim x).find? isLetter with
    | none =>
      rw [hf] at hrow
      have : row = 77 := by simpa using hrow
      rw [this]; decide
    | some c =>
      rw [hf] at hrow
      have hr : row = upperUnit c := by simpa using hrow
      have hc : isLetter c = true := by
        have := List.find?_some hf
        simpa using this
      rw [hr]; exact upperUnit_letter c hc
  have hmem : size ∈ [8, 16, 24, 32, 48, 64] ∧ 1 ≤ col ∧ col ≤ size := by
    have hpos : 0 < size := by rw [hsize]; split_ifs <;> decide
    have hmax : max 1 size = size := by omega
    rw [hmax] at hcol
    have := Nat.mod_lt (trim x).sum hpos
    refine ⟨?_, by omega, by omega⟩
    rw [hsize]; split_ifs <;> decide
  refine ⟨⟨natToString size, [row], natToString col, colors.getD ((trim x).sum % 9) []⟩,
    size, col, ?_, parseInt_natToString size, hmem.1, ⟨row, rfl, hup⟩,
    parseInt_natToString col, hmem.2.1, hmem.2.2, v, hv1, hv2⟩
  rw [hgen]
  exact formatCode_parses size col row _ (isUpper_letter row hup) hne htok

/-! ## Layout selection and rendering -/

/-- C6: `showCharsOverlay` appends nothing for the empty sequence and for a
sequence whose first element does not match the grammar. Otherwise the size
group of the first element reads as a number `size`, and the sequence is
rendered as one row of `size` cells when its length is `size`, as `size` rows
of `size` cells when its length is `size * size` and not `size`, and as the
sampled color list for every other length; a `size` of 0 always gives the
sampled list. The four codes `4A1_Red`, `4A2_Blue`, `4A3_Green`, `4A4_Yellow`
give one row colored `#FF0000`, `#0000FF`, `#00FF00`, `#FFFF00`. -/
theorem showCharsOverlay_layout (rows : Option (JSString → Option (List JSString)))
    (chooseRow : Bool) :
    showCharsOverlay [] rows chooseRow = .nothing ∧
    (∀ (first : JSString) (rest : List JSString), execGrammar first = none →
      showCharsOverlay (first :: rest) rows chooseRow = .nothing) ∧
    (∀ (first : JSString) (rest : List JSString) (mm : Groups), execGrammar first = some mm →
      ∃ size : Nat, parseInt mm.size 10 = some (size : Int) ∧
        ((first :: rest).length = size →
          ∃ row : List Cell, showCharsOverlay (first :: rest) rows chooseRow = .table [row] ∧
            row.length = size ∧
            row = (List.range size).map fun c => renderCell ((first :: rest).getD c [])) ∧
        ((first :: rest).length = size * size → (first :: rest).length ≠ size →
          ∃ table : List (List Cell),
            showCharsOverlay (first :: rest) rows chooseRow = .table table ∧
            table.length = size ∧ (∀ row ∈ table, row.length = size) ∧
            table = (List.range size).map fun r =>
              (List.range size).map fun c =>
                renderCell ((first :: rest).getD (r * size + c) [])) ∧
        ((first :: rest).length ≠ size → (first :: rest).length ≠ size * size →
          ∃ title chips, showCharsOverlay (first :: rest) rows chooseRow =
            .colorList title chips) ∧
        (size = 0 →
          ∃ title chips, showCharsOverlay (first :: rest) rows chooseRow =
            .colorList title chips)) ∧
    showCharsOverlay [lit "4A1_Red", lit "4A2_Blue", lit "4A3_Green", lit "4A4_Yellow"]
        rows chooseRow =
      .table [[⟨.str (lit "#FF0000"), .str (lit "#FF0000"), lit "#fff"⟩,
        ⟨.str (lit "#0000FF"), .str (lit "#0000FF"), lit "#fff"⟩,
        ⟨.str (lit "#00FF00"), .str (lit "#00FF00"), lit "#000"⟩,
        ⟨.str (lit "#FFFF00"), .str (lit "#FFFF00"), lit "#000"⟩]] := by
  refine ⟨rfl, fun first rest hm => showCharsOverlay_unmatched first rest rows chooseRow hm,
    ?_, ?_⟩
  · intro first rest mm hm
    have hp := execGrammar_size_parses first mm hm
    have hshape := showCharsOverlay_parsed first rest rows chooseRow mm _ hm hp
    refine ⟨decimalFold 0 mm.size, hp, ?_, ?_, ?_, ?_⟩
    · intro hlen
      simp only [List.length_cons] at hlen
      rw [hshape, if_pos hlen]
      exact ⟨_, rfl, by simp, rfl⟩
    · intro hlen hne
      simp only [List.length_cons] at hlen hne
      rw [hshape, if_neg hne, if_pos hlen]
      refine ⟨_, rfl, by simp, ?_, rfl⟩
      intro row hrow
      simp only [List.mem_map] at hrow
      obtain ⟨r, _, rfl⟩ := hrow
      simp
    · intro hne1 hne2
      simp only [List.length_cons] at hne1 hne2
      rw [hshape, if_neg hne1, if_neg hne2]
      exact ⟨_, _, rfl⟩
    · intro h0
      rw [hshape, h0, if_neg (by omega), if_neg (by omega)]
      exact ⟨_, _, rfl⟩
  · have hm : execGrammar (lit "4A1_Red") = some ⟨lit "4", lit "A", lit "1", lit "Red"⟩ := by
      decide
    have hp : parseInt (lit "4") 10 = some ((4 : Nat) : Int) := by decide
    rw [showCharsOverlay_parsed (lit "4A1_Red") [lit "4A2_Blue", lit "4A3_Green", lit "4A4_Yellow"]
      rows chooseRow _ 4 hm hp, if_pos (by decide)]
    decide!

/-- C7: for a size above 1 and a sequence of `size * size` codes whose first
element matches the grammar with that size, the table has `size` rows of `size`
cells; for `r, c < size` the index `r * size + c` lies within the sequence, and
the cell of row `r` and column `c` has as text and background `colorPartToHex`
of the color group of that element, or `#FF00FF` when the element does not match
the grammar. -/
theorem grid_row_major (first : JSString) (rest : List JSString)
    (rows : Option (JSString → Option (List JSString))) (chooseRow : Bool)
    (mm : Groups) (size : Nat) (hsize : 1 < size)
    (hlen : (first :: rest).length = size * size)
    (hm : execGrammar first = some mm) (hp : parseInt mm.size 10 = some (size : Int)) :
    ∃ table : List (List Cell),
      showCharsOverlay (first :: rest) rows chooseRow = .table table ∧
      table.length = size ∧ (∀ row ∈ table, row.length = size) ∧
      ∀ r c, r < size → c < size →
        ∃ (code : JSString) (row : List Cell) (cell : Cell),
          (first :: rest)[r * size + c]? = some code ∧
          table[r]? = some row ∧ row[c]? = some cell ∧
          (∀ g, execGrammar code = some g →
            cell.text = colorPartToHex g.color ∧ cell.background = colorPartToHex g.color) ∧
          (execGrammar code = none →
            cell.text = .str (lit "#FF00FF") ∧ cell.background = .str (lit "#FF00FF")) := by
  have hshape := showCharsOverlay_parsed first rest rows chooseRow mm size hm hp
  simp only [List.length_cons] at hlen
  have hne : rest.length + 1 ≠ size := by
    intro h
    rw [h] at hlen
    have : size * 2 ≤ size * size := Nat.mul_le_mul_left size hsize
    omega
  rw [if_neg hne, if_pos hlen] at hshape
  refine ⟨_, hshape, by simp, ?_, ?_⟩
  · intro row hrow
    simp only [List.mem_map] at hrow
    obtain ⟨r, _, rfl⟩ := hrow
    simp
  · intro r c hr hc
    have hidx : r * size + c < (first :: rest).length := by
      simp only [List.length_cons, hlen]
      calc r * size + c < r * size + size := by omega
        _ = (r + 1) * size := by ring
        _ ≤ size * size := Nat.mul_le_mul_right size hr
    refine ⟨(first :: rest)[r * size + c],
      (List.range size).map (fun c => renderCell ((first :: rest).getD (r * size + c) [])),
      renderCell ((first :: rest)[r * size + c]),
      List.getElem?_eq_getElem hidx, ?_, ?_, renderCell_text _⟩
    · rw [List.getElem?_map, List.getElem?_range hr]
      rfl
    · rw [List.getElem?_map, List.getElem?_range hc]
      simp only [Option.map_some', Option.some.injEq]
      rw [List.getD_eq_getElem _ _ hidx]

/-- Witness of C7: the four codes of colors `#FFFFFF`, `#000000`, `#FF0000`,
`#0000FF` at size 2 give the grid of rows white, black and red, blue. -/
theorem grid_row_major_witness :
    (∃ table : List (List Cell),
      showCharsOverlay [lit "2A0_FFFFFF", lit "2A1_000000", lit "2B0_FF0000", lit "2B1_0000FF"]
        none true = .table table ∧
      table.length = 2 ∧ (∀ row ∈ table, row.length = 2) ∧
      ∀ r c, r < 2 → c < 2 →
        ∃ (code : JSString) (row : List Cell) (cell : Cell),
          [lit "2A0_FFFFFF", lit "2A1_000000", lit "2B0_FF0000", lit "2B1_0000FF"][r * 2 + c]? =
            some code ∧
          table[r]? = some row ∧ row[c]? = some cell ∧
          (∀ g, execGrammar code = some g →
            cell.text = colorPartToHex g.color ∧ cell.background = colorPartToHex g.color) ∧
          (execGrammar code = none →
            cell.text = .str (lit "#FF00FF") ∧ cell.background = .str (lit "#FF00FF"))) ∧
    showCharsOverlay [lit "2A0_FFFFFF", lit "2A1_000000", lit "2B0_FF0000", lit "2B1_0000FF"]
        none true =
      .table [[⟨.str (lit "#FFFFFF"), .str (lit "#FFFFFF"), lit "#000"⟩,
          ⟨.str (lit "#000000"), .str (lit "#000000"), lit "#fff"⟩],
        [⟨.str (lit "#FF0000"), .str (lit "#FF0000"), lit "#fff"⟩,
          ⟨.str (lit "#0000FF"), .str (lit "#0000FF"), lit "#fff"⟩]] :=
  ⟨grid_row_major (lit "2A0_FFFFFF") [lit "2A1_000000", lit "2B0_FF0000", lit "2B1_0000FF"]
    none true ⟨lit "2", lit "A", lit "0", lit "FFFFFF"⟩ 2 (by decide) (by decide) (by decide)
    (by decide), by decide!⟩

/-- C9: the sampled list does not keep the color token of a first element
whose token starts with a digit. For the single code `4A1_00FF00`, whose token
`00FF00` resolves to `#00FF00`, the synthesized codes are written without the
underscore (`4A000FF00`, ...), the grammar reads their leading zeros into the
column group and `FF00` as the token, and every chip shows `#FF00FF`, for
either outcome of the random choice. -/
theorem sampled_list_changes_token :
    execGrammar (lit "4A1_00FF00") = some ⟨lit "4", lit "A", lit "1", lit "00FF00"⟩ ∧
    colorPartToHex (lit "00FF00") = .str (lit "#00FF00") ∧
    sampledCodes (some 4) (some 1) (lit "A") (lit "00FF00") none true =
      [lit "4A000FF00", lit "4A100FF00", lit "4A200FF00", lit "4A300FF00"] ∧
    sampledCodes (some 4) (some 1) (lit "A") (lit "00FF00") none false =
      [lit "4A100FF00", lit "4B100FF00", lit "4C100FF00", lit "4D100FF00"] ∧
    execGrammar (lit "4A000FF00") = some ⟨lit "4", lit "A", lit "000", lit "FF00"⟩ ∧
    showCharsOverlay [lit "4A1_00FF00"] none true =
      .colorList (lit "Mostrando fila A")
        (List.replicate 4 ⟨.str (lit "#FF00FF"), .str (lit "#FF00FF")⟩) ∧
    showCharsOverlay [lit "4A1_00FF00"] none false =
      .colorList (lit "Mostrando columna 1")
        (List.replicate 4 ⟨.str (lit "#FF00FF"), .str (lit "#FF00FF")⟩) := by
  refine ⟨by decide, by decide, by decide, by decide, by decide, by decide!, by decide!⟩

end PixelCode
